import Mathlib

/-!
Verification development for `go_api.go`: a Go HTTP server whose single handler answers every
request it receives with a JSON greeting carrying a float64 Unix timestamp.

The program's own code (`APIResponse`, `handler`, `main`) is embedded as Lean functions. The
clock reading `time.Now().UnixNano()` is an explicit `Int` argument. The pieces of the Go
runtime and standard library the program calls are modelled next to it:

* float64 arithmetic (`Float64`): exact IEEE 754 binary64 values with round-to-nearest-even,
  for the two operations the handler performs (int64 conversion and division);
* `strconv` / `encoding/json` (`Strconv`, `Json`): shortest round-tripping decimal digits, the
  `%e` and `%f` layouts, and the encoder for structs, strings and floats;
* `net/http` (`Header`, `ResponseWriter`, `ServeMux`, `serve`): an in-memory response writer
  whose `Write` accepts every byte, the path-pattern dispatch of the default mux, and what the
  server does around the handler (the `Expect` check, `OPTIONS *`, no body for HEAD).
-/

namespace GoApi

/-! Section 1. float64 -/

/-- An IEEE 754 binary64 value: NaN, a signed infinity, or the signed finite value
`(-1)^neg * mant * 2^exp`. Rounding always produces `mant < 2^53` and `-1074 <= exp <= 971`,
with `mant >= 2^52` unless `exp = -1074`; zero is `fin neg 0 (-1074)`. -/
inductive Float64 where
  | nan
  | inf (neg : Bool)
  | fin (neg : Bool) (mant : Nat) (exp : Int)
deriving DecidableEq

namespace Float64

/-- Bit length minus one, by repeated halving (`fuel` bounds the number of halvings). -/
def log2Aux : Nat → Nat → Nat
  | 0, _ => 0
  | fuel + 1, n => if n < 2 then 0 else log2Aux fuel (n / 2) + 1

/-- Floor of the base-2 logarithm of a positive natural number. -/
def log2 (n : Nat) : Nat := log2Aux n n

/-- Floor of the base-2 logarithm of the positive rational `num / den`. -/
def floorLog2Ratio (num den : Nat) : Int :=
  let d : Int := (log2 num : Int) - (log2 den : Int)
  if den * 2 ^ d.toNat ≤ num * 2 ^ (-d).toNat then d else d - 1

/-- Nearest natural number to `num / den`, ties to the even one. -/
def roundHalfEven (num den : Nat) : Nat :=
  let q := num / den
  let r := num % den
  if den < 2 * r ∨ (2 * r = den ∧ q % 2 = 1) then q + 1 else q

/-- Exponent of the unit in the last place used to round `num / den`: 53 significant bits, but
never below the subnormal exponent `-1074`. -/
def quantum (num den : Nat) : Int := max (floorLog2Ratio num den - 52) (-1074)

/-- The ratio `num / den` expressed in units of `2 ^ quantum` and rounded to nearest-even. -/
def roundMant (num den : Nat) : Nat :=
  roundHalfEven (num * 2 ^ (-quantum num den).toNat) (den * 2 ^ (quantum num den).toNat)

/-- Round the rational `(-1)^neg * num / den` (with `den > 0`) to binary64, round-to-nearest,
ties-to-even, overflowing to an infinity. -/
def roundRatio (neg : Bool) (num den : Nat) : Float64 :=
  if num = 0 then fin neg 0 (-1074)
  else
    let e := quantum num den
    let m := roundMant num den
    let m1 := if m = 2 ^ 53 then 2 ^ 52 else m
    let e1 := if m = 2 ^ 53 then e + 1 else e
    if 971 < e1 then inf neg else fin neg m1 e1

/-- The magnitude `roundRatio` produces before its overflow check, as an exact rational. -/
def roundedValue (num den : Nat) : ℚ := (roundMant num den : ℚ) * (2 : ℚ) ^ quantum num den

/-- The Go conversion `float64(n)` of an integer. -/
def ofInt (n : Int) : Float64 := roundRatio (decide (n < 0)) n.natAbs 1

/-- The Go operator `/` on float64: IEEE 754 division. -/
def div : Float64 → Float64 → Float64
  | nan, _ => nan
  | _, nan => nan
  | inf _, inf _ => nan
  | inf s, fin t _ _ => inf (xor s t)
  | fin s _ _, inf t => fin (xor s t) 0 (-1074)
  | fin s m e, fin t m' e' =>
    if m' = 0 then (if m = 0 then nan else inf (xor s t))
    else roundRatio (xor s t) (m * 2 ^ (e - e').toNat) (m' * 2 ^ (e' - e).toNat)

/-- The exact rational value of a finite float64 (0 for NaN and the infinities). -/
def toRat : Float64 → ℚ
  | fin neg m e => (if neg then -1 else 1) * (m : ℚ) * (2 : ℚ) ^ e
  | _ => 0

/-- Neither NaN nor an infinity. -/
def isFinite : Float64 → Bool
  | fin _ _ _ => true
  | _ => false

/-- The function `math.Abs`. -/
def abs : Float64 → Float64
  | nan => nan
  | inf _ => inf false
  | fin _ m e => fin false m e

/-- Comparison with zero (`f == 0`), true for both signed zeros. -/
def isZero : Float64 → Bool
  | fin _ m _ => m == 0
  | _ => false

/-- The signed significand as an integer. -/
def signedMant (neg : Bool) (m : Nat) : Int := if neg then -(m : Int) else (m : Int)

/-- The Go operator `<` on float64. -/
def lt : Float64 → Float64 → Bool
  | nan, _ => false
  | _, nan => false
  | inf s, inf t => s && !t
  | inf s, fin _ _ _ => s
  | fin _ _ _, inf t => !t
  | fin s m e, fin t m' e' =>
    decide (signedMant s m * 2 ^ (e - e').toNat < signedMant t m' * 2 ^ (e' - e).toNat)

/-- The Go operator `<=` on float64. -/
def le : Float64 → Float64 → Bool
  | nan, _ => false
  | _, nan => false
  | inf s, inf t => s || !t
  | inf s, fin _ _ _ => s
  | fin _ _ _, inf t => !t
  | fin s m e, fin t m' e' =>
    decide (signedMant s m * 2 ^ (e - e').toNat ≤ signedMant t m' * 2 ^ (e' - e).toNat)

end Float64

/-- The expression `float64(n) / 1e9` of `handler`, for the clock reading `n`
(`time.Now().UnixNano()`); the constant `1e9` is exactly representable. -/
def timestampOf (n : Int) : Float64 :=
  Float64.div (Float64.ofInt n) (Float64.ofInt 1000000000)

/-- The range of the Go type int64, the type of `UnixNano()`. -/
def IsInt64 (n : Int) : Prop := -9223372036854775808 ≤ n ∧ n ≤ 9223372036854775807

instance (n : Int) : Decidable (IsInt64 n) := by unfold IsInt64; infer_instance

/-! Section 2. strconv: shortest decimal digits and the `%e` / `%f` layouts -/

namespace Strconv

/-- Decimal digits of `n`, most significant first, accumulated in front of `acc`. -/
def digitsAux : Nat → Nat → List Nat → List Nat
  | 0, _, acc => acc
  | fuel + 1, n, acc => if n < 10 then n :: acc else digitsAux fuel (n / 10) (n % 10 :: acc)

/-- Decimal digits of `n`, most significant first; no digits for 0. -/
def digits (n : Nat) : List Nat := digitsAux n n []

/-- The ASCII character of a decimal digit. -/
def digitChar (d : Nat) : Char := Char.ofNat (48 + d)

/-- Drop the zeros at the end of a digit list. -/
def stripTrailingZeros (ds : List Nat) : List Nat :=
  (ds.reverse.dropWhile (fun d => d == 0)).reverse

/-- A decimal number `0.d1 d2 ... dn * 10^dp`, as in strconv's `decimalSlice`. -/
structure Decimal where
  d : List Nat
  dp : Int
deriving DecidableEq

/-- The exact value `m * 2^e` written as `C * 10^S` with `C` a natural number. -/
def exactDecimal (m : Nat) (e : Int) : Nat × Int :=
  if 0 ≤ e then (m * 2 ^ e.toNat, 0) else (m * 5 ^ (-e).toNat, e)

/-- Whether the decimal `c * 10^s` parses back (round-to-nearest-even) to the float64
`m * 2^e`. -/
def roundTrips (m : Nat) (e : Int) (c : Nat) (s : Int) : Bool :=
  Float64.roundRatio false (c * 10 ^ s.toNat) (10 ^ (-s).toNat) == Float64.fin false m e

/-- The decimal `c * 10^s` in digit form, without trailing zeros. -/
def mkDecimal (c : Nat) (s : Int) : Decimal :=
  { d := stripTrailingZeros (digits c), dp := s + (digits c).length }

/-- Search for the shortest digit string that round-trips: with `k` digits kept of the exact
expansion `C * 10^S` (of `L` digits), take the truncation or its successor when one of them
round-trips, the nearer one (ties to even) when both do; otherwise keep one more digit. After
17 attempts the exact expansion is used. -/
def shortestAux (m : Nat) (e : Int) (C : Nat) (S : Int) (L : Nat) : Nat → Nat → Decimal
  | 0, _ => mkDecimal C S
  | fuel + 1, k =>
    let sh := L - k
    let lo := C / 10 ^ sh
    let hi := lo + 1
    let rem := C % 10 ^ sh
    let okdown := roundTrips m e lo (S + sh)
    let okup := roundTrips m e hi (S + sh)
    if okdown && okup then
      if 2 * rem < 10 ^ sh ∨ (2 * rem = 10 ^ sh ∧ lo % 2 = 0) then mkDecimal lo (S + sh)
      else mkDecimal hi (S + sh)
    else if okdown then mkDecimal lo (S + sh)
    else if okup then mkDecimal hi (S + sh)
    else shortestAux m e C S L fuel (k + 1)

/-- The digits `strconv.FormatFloat(f, fmt, -1, 64)` prints for `|f| = m * 2^e`: the smallest
number of digits that identifies the float64 uniquely. -/
def shortest (m : Nat) (e : Int) : Decimal :=
  if m = 0 then { d := [], dp := 0 }
  else
    let C := (exactDecimal m e).1
    let S := (exactDecimal m e).2
    shortestAux m e C S (digits C).length 17 1

/-- The character of digit `i`, or `'0'` past the end of the digits. -/
def digitAt (ds : List Nat) (i : Nat) : Char :=
  if i < ds.length then digitChar (ds.getD i 0) else '0'

/-- The layout `%f`: integer part, then `prec` fraction digits. -/
def fmtF (neg : Bool) (dec : Decimal) (prec : Nat) : List Char :=
  let sign := if neg then ['-'] else []
  let intPart :=
    if 0 < dec.dp then (List.range dec.dp.toNat).map (digitAt dec.d) else ['0']
  let fracPart :=
    if 0 < prec then
      '.' :: (List.range prec).map (fun (i : Nat) =>
        if 0 ≤ dec.dp + (i : Int) then digitAt dec.d (dec.dp + (i : Int)).toNat else '0')
    else []
  sign ++ intPart ++ fracPart

/-- The layout `%e`: one digit, `prec` fraction digits, `e`, a sign and at least two exponent
digits. -/
def fmtE (neg : Bool) (dec : Decimal) (prec : Int) : List Char :=
  let sign := if neg then ['-'] else []
  let first := if dec.d.length = 0 then '0' else digitAt dec.d 0
  let frac :=
    if 0 < prec then '.' :: (List.range prec.toNat).map (fun i => digitAt dec.d (i + 1)) else []
  let exp : Int := if dec.d.length = 0 then 0 else dec.dp - 1
  let esign := if exp < 0 then '-' else '+'
  let a := exp.natAbs
  let edigits :=
    if a < 10 then ['0', digitChar a]
    else if a < 100 then [digitChar (a / 10), digitChar (a % 10)]
    else [digitChar (a / 100), digitChar (a / 10 % 10), digitChar (a % 10)]
  sign ++ [first] ++ frac ++ ['e', esign] ++ edigits

/-- The call `strconv.AppendFloat(b, f, fmt, -1, 64)` for a finite `f`, `fmt` being `'e'` or
`'f'`. -/
def formatFloat (neg : Bool) (m : Nat) (e : Int) (fmt : Char) : List Char :=
  let dec := shortest m e
  if fmt = 'e' then fmtE neg dec ((dec.d.length : Int) - 1)
  else fmtF neg dec ((dec.d.length : Int) - dec.dp).toNat

end Strconv

/-! Section 3. encoding/json -/

namespace Json

/-- Lower-case hexadecimal digit. -/
def hexDigit (n : Nat) : Char :=
  if n < 10 then Char.ofNat (48 + n) else Char.ofNat (87 + n)

/-- The table `htmlSafeSet`: ASCII characters copied unescaped into a JSON string. -/
def htmlSafe (c : Char) : Bool :=
  decide (32 ≤ c.toNat) && c != '"' && c != '\\' && c != '<' && c != '>' && c != '&'

/-- The escape the encoder (with HTML escaping on, the default of `NewEncoder`) writes for one
character of a string. -/
def escapeChar (c : Char) : List Char :=
  if c.toNat < 128 then
    if htmlSafe c then [c]
    else if c = '\\' ∨ c = '"' then ['\\', c]
    else if c.toNat = 8 then ['\\', 'b']
    else if c.toNat = 12 then ['\\', 'f']
    else if c = '\n' then ['\\', 'n']
    else if c = '\r' then ['\\', 'r']
    else if c = '\t' then ['\\', 't']
    else ['\\', 'u', '0', '0', hexDigit (c.toNat / 16), hexDigit (c.toNat % 16)]
  else if c.toNat = 8232 then ['\\', 'u', '2', '0', '2', '8']
  else if c.toNat = 8233 then ['\\', 'u', '2', '0', '2', '9']
  else [c]

/-- A Go string as a quoted JSON string. -/
def encodeString (s : String) : List Char :=
  ['"'] ++ (s.data.map escapeChar).flatten ++ ['"']

/-- The float64 constant `1e-6`. -/
def smallCutoff : Float64 := Float64.roundRatio false 1 1000000

/-- The float64 constant `1e21`. -/
def largeCutoff : Float64 := Float64.ofInt 1000000000000000000000

/-- The encoder's clean-up of a two-digit exponent with a leading zero: `e-09` becomes
`e-9`. -/
def cleanExponent (b : List Char) : List Char :=
  let n := b.length
  if 4 ≤ n ∧ b.getD (n - 4) ' ' = 'e' ∧ (b.getD (n - 3) ' ' = '-' ∨ b.getD (n - 3) ' ' = '+')
      ∧ b.getD (n - 2) ' ' = '0' then
    b.take (n - 2) ++ [b.getD (n - 1) ' ']
  else b

/-- The number text the float encoder writes for a finite float64: layout `%e` when the
magnitude is non-zero and below `1e-6` or at least `1e21`, layout `%f` otherwise. -/
def floatText (neg : Bool) (m : Nat) (e : Int) : List Char :=
  let abs := Float64.abs (.fin neg m e)
  let fmt :=
    if !abs.isZero && (Float64.lt abs smallCutoff || Float64.le largeCutoff abs) then 'e'
    else 'f'
  let b := Strconv.formatFloat neg m e fmt
  if fmt = 'e' then cleanExponent b else b

/-- The float encoder: NaN and the infinities are an `UnsupportedValueError`. -/
def encodeFloat : Float64 → Except String (List Char)
  | .nan => .error "json: unsupported value: NaN"
  | .inf neg =>
    .error (if neg then "json: unsupported value: -Inf" else "json: unsupported value: +Inf")
  | .fin neg m e => .ok (floatText neg m e)

/-- The field values that occur in `APIResponse`. -/
inductive Value where
  | str (s : String)
  | float (f : Float64)
deriving DecidableEq

/-- Encode one field value. -/
def encodeValue : Value → Except String (List Char)
  | .str s => .ok (encodeString s)
  | .float f => encodeFloat f

/-- The struct encoder's loop: an opening brace before the first field, a comma before the
others, then the quoted key, a colon and the value. -/
def encodeFields : List (String × Value) → Bool → Except String (List Char)
  | [], _ => .ok []
  | (name, v) :: rest, first => do
    let val ← encodeValue v
    let tail ← encodeFields rest false
    pure ([if first then '\x7b' else ','] ++ encodeString name ++ [':'] ++ val ++ tail)

/-- The struct encoder: the fields in declaration order between braces. -/
def encodeStruct (fields : List (String × Value)) : Except String (List Char) :=
  match fields with
  | [] => .ok ['\x7b', '\x7d']
  | _ => do
    let b ← encodeFields fields true
    pure (b ++ ['\x7d'])

end Json

/-! Section 4. net/http: headers, request, response writer -/

/-- The type `http.Header`: keys with their values. -/
abbrev Header := List (String × List String)

namespace Header

/-- Bytes allowed in a header field name. -/
def validHeaderFieldByte (c : Char) : Bool :=
  c.isAlphanum || "!#$%&\x27*+-.^_\x60|~".data.contains c

/-- Upper-case the first letter and every letter after a hyphen, lower-case the others. -/
def canonicalAux : List Char → Bool → List Char
  | [], _ => []
  | c :: cs, upper =>
    let c' :=
      if upper && decide ('a' ≤ c ∧ c ≤ 'z') then Char.ofNat (c.toNat - 32)
      else if !upper && decide ('A' ≤ c ∧ c ≤ 'Z') then Char.ofNat (c.toNat + 32)
      else c
    c' :: canonicalAux cs (c == '-')

/-- The function `textproto.CanonicalMIMEHeaderKey`. -/
def canonicalMIMEHeaderKey (s : String) : String :=
  if s.data.all validHeaderFieldByte then String.mk (canonicalAux s.data true) else s

/-- The method `Header.Set`: replace the values of the canonical key by the single value. -/
def set (h : Header) (key value : String) : Header :=
  let k := canonicalMIMEHeaderKey key
  (k, [value]) :: h.filter (fun p => p.1 != k)

/-- The method `Header.Get`: first value of the canonical key, or the empty string. -/
def get (h : Header) (key : String) : String :=
  match h.lookup (canonicalMIMEHeaderKey key) with
  | some (v :: _) => v
  | _ => ""

end Header

/-- The parts of `http.Request` a handler or the mux can look at. -/
structure Request where
  method : String
  path : String
  requestURI : String
  host : String
  header : Header
  body : String
deriving DecidableEq

/-- An in-memory `http.ResponseWriter`: the header map, whether the status line has been
written, the status code, the headers as they were when the status line was written (the ones
sent), and the body bytes. -/
structure ResponseWriter where
  header : Header
  wroteHeader : Bool
  status : Nat
  sentHeader : Header
  body : List Char
deriving DecidableEq

namespace ResponseWriter

/-- The writer the server hands to a handler for a new request. -/
def fresh : ResponseWriter :=
  { header := [], wroteHeader := false, status := 0, sentHeader := [], body := [] }

/-- The call `w.Header().Set(key, value)`. -/
def setHeader (w : ResponseWriter) (key value : String) : ResponseWriter :=
  { w with header := w.header.set key value }

/-- The method `WriteHeader`: the first call fixes the status code and the headers sent; later
calls are ignored. -/
def writeHeader (w : ResponseWriter) (code : Nat) : ResponseWriter :=
  if w.wroteHeader then w
  else { w with wroteHeader := true, status := code, sentHeader := w.header }

/-- The method `Write`: calls `WriteHeader(200)` first when no status has been written, then
appends the bytes; this writer never reports a write error. -/
def write (w : ResponseWriter) (data : List Char) : ResponseWriter × Option String :=
  let w1 := if w.wroteHeader then w else w.writeHeader 200
  ({ w1 with body := w1.body ++ data }, none)

/-- What the server does when the handler returns: a response still without status gets
200. -/
def finish (w : ResponseWriter) : ResponseWriter :=
  if w.wroteHeader then w else w.writeHeader 200

end ResponseWriter

/-! Section 5. The program: `APIResponse` and `handler` -/

/-- The struct `APIResponse`. -/
structure APIResponse where
  Message : String
  Timestamp : Float64
  Language : String
deriving DecidableEq

/-- The JSON fields of `APIResponse`, in declaration order, keyed by their `json` tags. -/
def APIResponse.fields (v : APIResponse) : List (String × Json.Value) :=
  [("message", .str v.Message), ("timestamp", .float v.Timestamp), ("language", .str v.Language)]

/-- JSON encoding of an `APIResponse`. -/
def Json.marshal (v : APIResponse) : Except String (List Char) :=
  Json.encodeStruct v.fields

/-- The call `json.NewEncoder(w).Encode(v)`: on an encoding error nothing is written and the
error is returned; otherwise the encoding followed by a newline is written to `w`. -/
def Json.encode (w : ResponseWriter) (v : APIResponse) : ResponseWriter × Option String :=
  match Json.marshal v with
  | .error err => (w, some err)
  | .ok b => w.write (b ++ ['\n'])

/-- The value `response` built by `handler` at clock reading `now`. -/
def response (now : Int) : APIResponse :=
  { Message := "Hello from Golang API!"
    Timestamp := timestampOf now
    Language := "Golang" }

/-- The body of `handler`, keeping the error `Encode` returns (which `handler` discards). -/
def handlerRun (w : ResponseWriter) (_r : Request) (now : Int) : ResponseWriter × Option String :=
  let response := response now
  let w1 := w.setHeader "Content-Type" "application/json"
  Json.encode w1 response

/-- The function `handler`: the state of the response writer when it returns. -/
def handler (w : ResponseWriter) (r : Request) (now : Int) : ResponseWriter :=
  (handlerRun w r now).1

/-! Section 6. path.Clean and the dispatch of the default ServeMux -/

namespace Path

/-- The output buffer of `path.Clean`: the bytes and the write position. -/
structure LazyBuf where
  buf : List Char
  w : Nat
deriving DecidableEq

/-- Write one byte at the write position. -/
def LazyBuf.append (b : LazyBuf) (c : Char) : LazyBuf :=
  { buf := b.buf.take b.w ++ [c], w := b.w + 1 }

/-- The byte at index `i`. -/
def LazyBuf.index (b : LazyBuf) (i : Nat) : Char := b.buf.getD i ' '

/-- The bytes written so far. -/
def LazyBuf.string (b : LazyBuf) : List Char := b.buf.take b.w

/-- The inner loop of the `..` case: step the write position back to the previous slash. -/
def backtrack (dotdot : Nat) : Nat → LazyBuf → LazyBuf
  | 0, out => out
  | fuel + 1, out =>
    if dotdot < out.w ∧ out.index out.w ≠ '/' then backtrack dotdot fuel { out with w := out.w - 1 }
    else out

/-- Copy one path element, up to the next slash. -/
def copyElem (path : List Char) (n : Nat) : Nat → Nat → LazyBuf → Nat × LazyBuf
  | 0, r, out => (r, out)
  | fuel + 1, r, out =>
    if r < n ∧ path.getD r ' ' ≠ '/' then copyElem path n fuel (r + 1) (out.append (path.getD r ' '))
    else (r, out)

/-- The main loop of `path.Clean`. -/
def cleanLoop (path : List Char) (n : Nat) (rooted : Bool) :
    Nat → Nat → LazyBuf → Nat → LazyBuf
  | 0, _, out, _ => out
  | fuel + 1, r, out, dotdot =>
    if r < n then
      if path.getD r ' ' = '/' then cleanLoop path n rooted fuel (r + 1) out dotdot
      else if path.getD r ' ' = '.' ∧ (r + 1 = n ∨ path.getD (r + 1) ' ' = '/') then
        cleanLoop path n rooted fuel (r + 1) out dotdot
      else if path.getD r ' ' = '.' ∧ path.getD (r + 1) ' ' = '.'
          ∧ (r + 2 = n ∨ path.getD (r + 2) ' ' = '/') then
        if dotdot < out.w then
          cleanLoop path n rooted fuel (r + 2)
            (backtrack dotdot out.w { out with w := out.w - 1 }) dotdot
        else if !rooted then
          let out1 := if 0 < out.w then out.append '/' else out
          let out2 := (out1.append '.').append '.'
          cleanLoop path n rooted fuel (r + 2) out2 out2.w
        else cleanLoop path n rooted fuel (r + 2) out dotdot
      else
        let out1 :=
          if (rooted && out.w != 1) || (!rooted && out.w != 0) then out.append '/' else out
        let p := copyElem path n n r out1
        cleanLoop path n rooted fuel p.1 p.2 dotdot
    else out

/-- The function `path.Clean`. -/
def clean (path : List Char) : List Char :=
  if path = [] then ['.']
  else
    let rooted := path.getD 0 ' ' = '/'
    let n := path.length
    let out0 : LazyBuf := { buf := [], w := 0 }
    let out := if rooted then out0.append '/' else out0
    let start := if rooted then 1 else 0
    let res := cleanLoop path n rooted (n + 1) start out start
    if res.w = 0 then ['.'] else res.string

end Path

/-- The function `cleanPath` of net/http: the canonical form of a request path (rooted, no
`.` or `..` elements, no repeated slashes, trailing slash kept). -/
def cleanPath (p : String) : String :=
  if p = "" then "/"
  else
    let p1 := if p.data.getD 0 ' ' ≠ '/' then '/' :: p.data else p.data
    let np := Path.clean p1
    if p1.getD (p1.length - 1) ' ' = '/' ∧ np ≠ ['/'] then
      if p1.length = np.length + 1 ∧ np.isPrefixOf p1 then String.mk p1
      else String.mk (np ++ ['/'])
    else String.mk np

/-- A `ServeMux` holding path patterns (the program registers no host-specific pattern); every
pattern of this program maps to `handler`. -/
structure ServeMux where
  patterns : List String
deriving DecidableEq

/-- What the mux selects for a request: a registered pattern, a redirect, or not-found. -/
inductive Target where
  | registered (pattern : String)
  | redirect (location : String)
  | notFound
deriving DecidableEq

namespace ServeMux

/-- The call `HandleFunc(pattern, handler)`. -/
def handleFunc (mux : ServeMux) (pattern : String) : ServeMux :=
  { patterns := mux.patterns ++ [pattern] }

/-- The longest registered pattern that ends in a slash and is a prefix of the path. -/
def longestPrefix (path : String) : List String → Option String → Option String
  | [], best => best
  | p :: ps, best =>
    if p.data.getLast? = some '/' ∧ p.data.isPrefixOf path.data then
      match best with
      | some b => longestPrefix path ps (if b.length < p.length then some p else some b)
      | none => longestPrefix path ps (some p)
    else longestPrefix path ps best

/-- The method `match`: an exact pattern first, else the longest matching subtree pattern. -/
def matchPattern (mux : ServeMux) (path : String) : Option String :=
  if mux.patterns.contains path then some path
  else longestPrefix path mux.patterns none

/-- Whether `path` must be redirected to `path + "/"` (only `path + "/"` is registered). -/
def shouldRedirect (mux : ServeMux) (path : String) : Bool :=
  if mux.patterns.contains path then false
  else if path.length = 0 then false
  else if mux.patterns.contains (path ++ "/") then path.data.getLast? != some '/'
  else false

/-- The handler for a path: the matched pattern, or not-found. -/
def lookup (mux : ServeMux) (path : String) : Target :=
  match mux.matchPattern path with
  | some p => .registered p
  | none => .notFound

/-- The method `ServeMux.Handler`: CONNECT requests are matched as they are; for every other
method a path that is not in canonical form is answered with a redirect to its canonical
form. -/
def target (mux : ServeMux) (r : Request) : Target :=
  if r.method = "CONNECT" then
    if mux.shouldRedirect r.path then .redirect (r.path ++ "/")
    else mux.lookup r.path
  else
    let path := cleanPath r.path
    if mux.shouldRedirect path then .redirect (path ++ "/")
    else if path ≠ r.path then .redirect path
    else mux.lookup r.path

end ServeMux

/-- The redirect handler the mux installs: the status `code` with a `Location` header. The
status is `StatusMovedPermanently` (301) or `StatusTemporaryRedirect` (307) depending on the
Go release, so it is an argument; the short HTML body net/http adds for GET and the
URL-escaping of the location are left out. -/
def redirectResponse (code : Nat) (w : ResponseWriter) (location : String) : ResponseWriter :=
  (w.setHeader "Location" location).writeHeader code

/-- The handler `http.NotFound`. -/
def notFoundResponse (w : ResponseWriter) : ResponseWriter :=
  let w1 := (w.setHeader "Content-Type" "text/plain; charset=utf-8").setHeader
    "X-Content-Type-Options" "nosniff"
  ((w1.writeHeader 404).write "404 page not found\n".data).1

/-- The method `ServeMux.ServeHTTP`: the request-URI `*` is a bad request; otherwise the
selected handler runs. `redirectCode` is the status the release uses for mux redirects. -/
def serveMux (redirectCode : Nat) (mux : ServeMux) (w : ResponseWriter) (r : Request)
    (now : Int) : ResponseWriter :=
  if r.requestURI = "*" then
    (w.setHeader "Connection" "close").writeHeader 400
  else
    match mux.target r with
    | .registered _ => handler w r now
    | .redirect loc => redirectResponse redirectCode w loc
    | .notFound => notFoundResponse w

/-- The default mux after `main` ran `http.HandleFunc("/", handler)`. -/
def defaultServeMux : ServeMux := ServeMux.handleFunc { patterns := [] } "/"

/-- The bytes that may stand next to a token in a header value. -/
def isTokenBoundary (b : Char) : Bool := b == ' ' || b == ',' || b == '\t'

/-- ASCII lower-casing of one byte. -/
def lowerASCII (b : Char) : Char :=
  if 'A' ≤ b ∧ b ≤ 'Z' then Char.ofNat (b.toNat + 32) else b

/-- The function `ascii.EqualFold`: equality up to ASCII case. -/
def equalFold (s t : List Char) : Bool :=
  s.length == t.length && (s.zip t).all (fun p => lowerASCII p.1 == lowerASCII p.2)

/-- The function `hasToken` of net/http: whether the header value `v` contains `token` as a
whole token, ASCII case ignored. -/
def hasToken (v token : List Char) : Bool :=
  if v.length < token.length ∨ token = [] then false
  else if v = token then true
  else (List.range (v.length - token.length + 1)).any (fun sp =>
    let b := v.getD sp ' '
    let t0 := token.getD 0 ' '
    let endPos := sp + token.length
    (b == t0 || Char.ofNat (b.toNat ||| 32) == t0) &&
    (sp == 0 || isTokenBoundary (v.getD (sp - 1) ' ')) &&
    (endPos == v.length || isTokenBoundary (v.getD endPos ' ')) &&
    equalFold ((v.drop sp).take token.length) token)

/-- The method `Request.expectsContinue`. -/
def expectsContinue (r : Request) : Bool :=
  hasToken (r.header.get "Expect").data "100-continue".data

/-- The method `sendExpectationFailed`: status 417 with `Connection: close`. -/
def sendExpectationFailed (w : ResponseWriter) : ResponseWriter :=
  ((w.setHeader "Connection" "close").writeHeader 417).finish

/-- What goes on the wire: for a HEAD request the server's writer accepts the body bytes and
discards them, the status line and the headers are those the handler produced. -/
def onWire (r : Request) (w : ResponseWriter) : ResponseWriter :=
  if r.method = "HEAD" then { w with body := [] } else w

/-- What the server started by `ListenAndServe(addr, nil)` does with one parsed request at
clock reading `now`: an `Expect` header that does not ask for `100-continue` is answered with
417 before any handler runs; `OPTIONS *` is answered by the server itself; everything else
goes through the default mux; a HEAD response is sent without its body. -/
def serve (redirectCode : Nat) (r : Request) (now : Int) : ResponseWriter :=
  if !expectsContinue r && r.header.get "Expect" != "" then
    sendExpectationFailed ResponseWriter.fresh
  else if r.requestURI = "*" ∧ r.method = "OPTIONS" then
    onWire r (ResponseWriter.fresh.setHeader "Content-Length" "0").finish
  else onWire r (serveMux redirectCode defaultServeMux ResponseWriter.fresh r now).finish

/-! Section 7. `main` -/

/-- The verb `%d` for a non-negative integer. -/
def itoa (n : Nat) : List Char :=
  if n = 0 then ['0'] else (Strconv.digits n).map Strconv.digitChar

/-- The observable steps of `main`. -/
inductive Effect where
  | handleFunc (pattern : String)
  | printf (out : String)
  | listenAndServe (addr : String)
  | logFatal (msg : String)
deriving DecidableEq

/-- How a run of `main` ends: it keeps serving, the process exits with a status, or `main`
returns normally (exit status 0). -/
inductive Outcome where
  | serving
  | exited (code : Nat)
  | returned
deriving DecidableEq

/-- The variable `port` of `main`. -/
def port : Nat := 8003

/-- The function `main`. `listenError` is what `http.ListenAndServe` does: `none` when it
never returns (the server keeps serving), `some err` when it returns the error `err`;
`log.Fatal` logs its argument and exits with status 1. -/
def main (listenError : Option String) : List Effect × Outcome :=
  let start : List Effect :=
    [ .handleFunc "/"
    , .printf (String.mk ("Starting Golang API on port ".data ++ itoa port ++ "...\n".data))
    , .listenAndServe (String.mk (":".data ++ itoa port)) ]
  match listenError with
  | none => (start, .serving)
  | some err => (start ++ [.logFatal err], .exited 1)

/-! Section 8. Predicates and sample inputs used to state the results -/

/-- The text of the JSON object the handler encodes, around the number text of the
timestamp. -/
def objectText (number : List Char) : List Char :=
  "\x7b\"message\":\"Hello from Golang API!\",\"timestamp\":".data ++ number
    ++ ",\"language\":\"Golang\"\x7d".data

/-- A non-empty run of ASCII digits. -/
def IsDigits (s : List Char) : Prop := s ≠ [] ∧ ∀ c ∈ s, c.isDigit = true

/-- The integer part of a JSON number: `0`, or digits not starting with `0`. -/
def IsJSONInt (s : List Char) : Prop := s = ['0'] ∨ (IsDigits s ∧ s.head? ≠ some '0')

/-- The optional fraction of a JSON number. -/
def IsJSONFrac (s : List Char) : Prop := s = [] ∨ ∃ ds, s = '.' :: ds ∧ IsDigits ds

/-- The optional exponent of a JSON number. -/
def IsJSONExp (s : List Char) : Prop :=
  s = [] ∨ ∃ (mark : Char) (sign ds : List Char), s = mark :: sign ++ ds ∧
    (mark = 'e' ∨ mark = 'E') ∧ (sign = [] ∨ sign = ['+'] ∨ sign = ['-']) ∧ IsDigits ds

/-- The grammar of a JSON number (RFC 8259): optional minus, integer part, optional fraction,
optional exponent. -/
def IsJSONNumber (s : List Char) : Prop :=
  ∃ sign int frac exp, s = sign ++ int ++ frac ++ exp ∧ (sign = [] ∨ sign = ['-']) ∧
    IsJSONInt int ∧ IsJSONFrac frac ∧ IsJSONExp exp

/-- Digits of a non-zero decimal: each below ten, the first one not zero. -/
def Strconv.Decimal.WellFormed (dec : Strconv.Decimal) : Prop :=
  ∃ h t, dec.d = h :: t ∧ h ≠ 0 ∧ h < 10 ∧ ∀ d ∈ t, d < 10

/-- Invariant of the output buffer of `path.Clean` on a rooted path: it starts with a slash. -/
def Path.LazyBuf.Rooted (b : Path.LazyBuf) : Prop := 1 ≤ b.w ∧ b.buf.head? = some '/'

/-- The request `GET /`. -/
def getRoot : Request :=
  { method := "GET", path := "/", requestURI := "/", host := "localhost:8003", header := [],
    body := "" }

/-- The request `POST /anything/nested/path` with a body. -/
def postNested : Request :=
  { method := "POST", path := "/anything/nested/path", requestURI := "/anything/nested/path",
    host := "localhost:8003", header := [("Content-Type", ["text/plain"])],
    body := "arbitrary body" }

/-- The request `HEAD /`. -/
def headRoot : Request :=
  { method := "HEAD", path := "/", requestURI := "/", host := "localhost:8003", header := [],
    body := "" }

/-- The request `GET /` carrying the header `Expect: foo`. -/
def getExpectFoo : Request :=
  { method := "GET", path := "/", requestURI := "/", host := "localhost:8003",
    header := [("Expect", ["foo"])], body := "" }

/-- Whether an effect is a call of `ListenAndServe`. -/
def isListen : Effect → Bool
  | .listenAndServe _ => true
  | _ => false

/-! Section 9. Lemmas on the float64 rounding -/

namespace Float64

theorem log2Aux_spec : ∀ (fuel n : Nat), n ≤ fuel → n ≠ 0 →
    2 ^ log2Aux fuel n ≤ n ∧ n < 2 ^ (log2Aux fuel n + 1) := by
  intro fuel
  induction fuel with
  | zero => intro n h h0; omega
  | succ f ih =>
    intro n h h0
    unfold log2Aux
    by_cases h2 : n < 2
    · simp only [h2, if_true]
      constructor <;> simp <;> omega
    · simp only [h2, if_false]
      have := ih (n / 2) (by omega) (by omega)
      obtain ⟨a, b⟩ := this
      constructor
      · rw [pow_succ]; omega
      · rw [pow_succ]; omega

theorem log2_spec (n : Nat) (h0 : n ≠ 0) : 2 ^ log2 n ≤ n ∧ n < 2 ^ (log2 n + 1) :=
  log2Aux_spec n n le_rfl h0

theorem two_zpow_toNat (d : Int) : (2 : ℚ) ^ d * 2 ^ (-d).toNat = 2 ^ d.toNat := by
  rcases le_total 0 d with h | h
  · obtain ⟨n, rfl⟩ := Int.eq_ofNat_of_zero_le h
    have h1 : (-(n : Int)).toNat = 0 := by omega
    rw [h1, pow_zero, mul_one, Int.toNat_ofNat, zpow_natCast]
  · obtain ⟨n, rfl⟩ : ∃ n : Nat, d = -(n : Int) := ⟨(-d).toNat, by omega⟩
    have h1 : (-(n : Int)).toNat = 0 := by omega
    rw [h1, pow_zero, neg_neg, Int.toNat_ofNat, zpow_neg, zpow_natCast]
    have : (2 : ℚ) ^ n ≠ 0 := by positivity
    field_simp

/-- Scaling numerator and denominator by the two shift amounts gives the ratio times `2^(-d)`. -/
theorem scaled_ratio (num den : Nat) (d : Int) :
    ((num * 2 ^ (-d).toNat : Nat) : ℚ) / ((den * 2 ^ d.toNat : Nat) : ℚ)
      = (num : ℚ) / den * (2 : ℚ) ^ (-d) := by
  have h := two_zpow_toNat d
  have hp : (2 : ℚ) ^ d ≠ 0 := by positivity
  have hq : (2 : ℚ) ^ (-d).toNat ≠ 0 := by positivity
  push_cast
  rw [← h, zpow_neg]
  by_cases hden : (den : ℚ) = 0
  · simp [hden]
  · field_simp
    ring

theorem floorLog2Ratio_spec (num den : Nat) (hn : 0 < num) (hd : 0 < den) :
    (2 : ℚ) ^ floorLog2Ratio num den ≤ (num : ℚ) / den ∧
    (num : ℚ) / den < (2 : ℚ) ^ (floorLog2Ratio num den + 1) := by
  obtain ⟨a1, a2⟩ := log2_spec num (by omega)
  obtain ⟨b1, b2⟩ := log2_spec den (by omega)
  have hdq : (0 : ℚ) < den := by exact_mod_cast hd
  have a1q : (2 : ℚ) ^ (log2 num : Int) ≤ num := by rw [zpow_natCast]; exact_mod_cast a1
  have a2q : (num : ℚ) < (2 : ℚ) ^ ((log2 num : Int) + 1) := by
    rw [show ((log2 num : Int) + 1) = ((log2 num + 1 : Nat) : Int) by push_cast; ring, zpow_natCast]
    exact_mod_cast a2
  have b1q : (2 : ℚ) ^ (log2 den : Int) ≤ den := by rw [zpow_natCast]; exact_mod_cast b1
  have b2q : (den : ℚ) < (2 : ℚ) ^ ((log2 den : Int) + 1) := by
    rw [show ((log2 den : Int) + 1) = ((log2 den + 1 : Nat) : Int) by push_cast; ring, zpow_natCast]
    exact_mod_cast b2
  have hsc := scaled_ratio num den ((log2 num : Int) - (log2 den : Int))
  unfold floorLog2Ratio
  simp only
  set d : Int := (log2 num : Int) - (log2 den : Int) with hd_def
  have hpos : (0 : ℚ) < ((den * 2 ^ d.toNat : Nat) : ℚ) := by
    have : 0 < den * 2 ^ d.toNat := by positivity
    exact_mod_cast this
  have h2d : (0 : ℚ) < 2 ^ d := by positivity
  have key : (den * 2 ^ d.toNat ≤ num * 2 ^ (-d).toNat) ↔ (2 : ℚ) ^ d ≤ (num : ℚ) / den := by
    rw [← Nat.cast_le (α := ℚ), ← one_le_div hpos, hsc, zpow_neg, ← div_eq_mul_inv,
      one_le_div h2d]
  by_cases hc : den * 2 ^ d.toNat ≤ num * 2 ^ (-d).toNat
  · rw [if_pos hc]
    refine ⟨key.mp hc, ?_⟩
    rw [div_lt_iff₀ hdq]
    calc (num : ℚ) < 2 ^ ((log2 num : Int) + 1) := a2q
      _ = 2 ^ (d + 1) * 2 ^ (log2 den : Int) := by
          rw [← zpow_add₀ (by norm_num)]; congr 1; omega
      _ ≤ 2 ^ (d + 1) * den := by
          apply mul_le_mul_of_nonneg_left b1q; positivity
  · rw [if_neg hc]
    have hlt : (num : ℚ) / den < 2 ^ d := by
      by_contra hcon
      exact hc (key.mpr (not_lt.mp hcon))
    refine ⟨?_, by simpa using hlt⟩
    rw [le_div_iff₀ hdq]
    calc (2 : ℚ) ^ (d - 1) * den ≤ 2 ^ (d - 1) * 2 ^ ((log2 den : Int) + 1) := by
          apply mul_le_mul_of_nonneg_left b2q.le; positivity
      _ = 2 ^ (log2 num : Int) := by
          rw [← zpow_add₀ (by norm_num)]; congr 1; omega
      _ ≤ num := a1q

end Float64

namespace Float64

theorem roundHalfEven_ge_div (N D : Nat) : N / D ≤ roundHalfEven N D := by
  unfold roundHalfEven; simp only; split <;> omega

theorem roundHalfEven_le_div_succ (N D : Nat) : roundHalfEven N D ≤ N / D + 1 := by
  unfold roundHalfEven; simp only; split <;> omega

theorem roundHalfEven_mul (k D : Nat) (hD : 0 < D) : roundHalfEven (k * D) D = k := by
  unfold roundHalfEven
  simp only [Nat.mul_mod_left, Nat.mul_div_cancel _ hD]
  rw [if_neg]
  omega

theorem div_le_div_of_cross (N1 D1 N2 D2 : Nat) (h1 : 0 < D1) (h2 : 0 < D2)
    (h : N1 * D2 ≤ N2 * D1) : N1 / D1 ≤ N2 / D2 := by
  rw [Nat.le_div_iff_mul_le h2]
  have a : N1 / D1 * D1 ≤ N1 := Nat.div_mul_le_self N1 D1
  have b : N1 / D1 * D2 * D1 ≤ N2 * D1 := by
    calc N1 / D1 * D2 * D1 = N1 / D1 * D1 * D2 := by ring
      _ ≤ N1 * D2 := Nat.mul_le_mul_right _ a
      _ ≤ N2 * D1 := h
  exact Nat.le_of_mul_le_mul_right b h1

theorem roundHalfEven_mono (N1 D1 N2 D2 : Nat) (h1 : 0 < D1) (h2 : 0 < D2)
    (h : N1 * D2 ≤ N2 * D1) : roundHalfEven N1 D1 ≤ roundHalfEven N2 D2 := by
  have hq := div_le_div_of_cross N1 D1 N2 D2 h1 h2 h
  rcases Nat.lt_or_ge (N1 / D1) (N2 / D2) with hlt | hge
  · calc roundHalfEven N1 D1 ≤ N1 / D1 + 1 := roundHalfEven_le_div_succ _ _
      _ ≤ N2 / D2 := hlt
      _ ≤ roundHalfEven N2 D2 := roundHalfEven_ge_div _ _
  · have heq : N1 / D1 = N2 / D2 := le_antisymm hq hge
    have e1 := Nat.div_add_mod N1 D1
    have e2 := Nat.div_add_mod N2 D2
    have hr : N1 % D1 * D2 ≤ N2 % D2 * D1 := by
      have : (D1 * (N1 / D1) + N1 % D1) * D2 ≤ (D2 * (N2 / D2) + N2 % D2) * D1 := by
        rw [e1, e2]; exact h
      rw [heq] at this
      nlinarith
    unfold roundHalfEven
    simp only
    rw [heq]
    by_cases c1 : D1 < 2 * (N1 % D1) ∨ (2 * (N1 % D1) = D1 ∧ N2 / D2 % 2 = 1)
    · have c2 : D2 < 2 * (N2 % D2) ∨ (2 * (N2 % D2) = D2 ∧ N2 / D2 % 2 = 1) := by
        rcases c1 with c | ⟨c, o⟩
        · left
          have : D1 * D2 < 2 * (N2 % D2) * D1 := by nlinarith
          nlinarith
        · have : D1 * D2 ≤ 2 * (N2 % D2) * D1 := by nlinarith
          have : D2 ≤ 2 * (N2 % D2) := by nlinarith
          rcases Nat.lt_or_ge D2 (2 * (N2 % D2)) with l | g
          · left; exact l
          · right; exact ⟨by omega, o⟩
      rw [if_pos c1, if_pos c2]
    · rw [if_neg c1]
      split <;> omega

theorem roundHalfEven_close (N D : Nat) (hD : 0 < D) :
    |(roundHalfEven N D : ℚ) - (N : ℚ) / D| ≤ 1 / 2 := by
  have hDq : (0 : ℚ) < D := by exact_mod_cast hD
  have e1 : ((D * (N / D) + N % D : Nat) : ℚ) = N := by rw [Nat.div_add_mod]
  have hlt : N % D < D := Nat.mod_lt _ hD
  have hltq : ((N % D : Nat) : ℚ) < D := by exact_mod_cast hlt
  have hx : (N : ℚ) / D = ((N / D : Nat) : ℚ) + ((N % D : Nat) : ℚ) / D := by
    rw [← e1]; push_cast; field_simp; ring
  rw [hx, abs_le]
  unfold roundHalfEven
  simp only
  split
  · rename_i c
    have c' : D ≤ 2 * (N % D) := by omega
    have cq : (D : ℚ) ≤ 2 * ((N % D : Nat) : ℚ) := by exact_mod_cast c'
    push_cast
    constructor
    · have : ((N % D : Nat) : ℚ) / D ≤ 1 := by rw [div_le_one hDq]; exact hltq.le
      linarith
    · have : 1 / 2 ≤ ((N % D : Nat) : ℚ) / D := by
        rw [le_div_iff₀ hDq]; linarith
      linarith
  · rename_i c
    have c' : 2 * (N % D) ≤ D := by omega
    have cq : 2 * ((N % D : Nat) : ℚ) ≤ D := by exact_mod_cast c'
    constructor
    · have : ((N % D : Nat) : ℚ) / D ≤ 1 / 2 := by
        rw [div_le_iff₀ hDq]; linarith
      linarith
    · have : 0 ≤ ((N % D : Nat) : ℚ) / D := by positivity
      linarith

end Float64

namespace Float64

theorem two_zpow_le {a b : Int} (h : a ≤ b) : (2 : ℚ) ^ a ≤ 2 ^ b :=
  zpow_le_zpow_right₀ (by norm_num) h

theorem two_zpow_lt_imp {a b : Int} (h : (2 : ℚ) ^ a < 2 ^ b) : a < b :=
  (zpow_lt_zpow_iff_right₀ (by norm_num : (1 : ℚ) < 2)).mp h

theorem floorLog2Ratio_lt (num den : Nat) (hn : 0 < num) (hd : 0 < den) (k : Int)
    (h : (num : ℚ) / den < 2 ^ k) : floorLog2Ratio num den < k :=
  two_zpow_lt_imp (lt_of_le_of_lt (floorLog2Ratio_spec num den hn hd).1 h)

theorem floorLog2Ratio_ge (num den : Nat) (hn : 0 < num) (hd : 0 < den) (k : Int)
    (h : (2 : ℚ) ^ k ≤ (num : ℚ) / den) : k ≤ floorLog2Ratio num den := by
  have := two_zpow_lt_imp (lt_of_le_of_lt h (floorLog2Ratio_spec num den hn hd).2)
  omega

theorem floorLog2Ratio_mono (a b c d : Nat) (ha : 0 < a) (hb : 0 < b) (hc : 0 < c) (hd : 0 < d)
    (h : (a : ℚ) / b ≤ (c : ℚ) / d) : floorLog2Ratio a b ≤ floorLog2Ratio c d :=
  floorLog2Ratio_ge c d hc hd _ (le_trans (floorLog2Ratio_spec a b ha hb).1 h)

theorem quantum_mono (a b c d : Nat) (ha : 0 < a) (hb : 0 < b) (hc : 0 < c) (hd : 0 < d)
    (h : (a : ℚ) / b ≤ (c : ℚ) / d) : quantum a b ≤ quantum c d := by
  have := floorLog2Ratio_mono a b c d ha hb hc hd h
  unfold quantum
  omega

theorem scaled_den_pos (den : Nat) (e : Int) (hd : 0 < den) : 0 < den * 2 ^ e.toNat := by
  positivity

/-- The integer fed to the rounding step is the ratio divided by the quantum. -/
theorem scaled_ratio_quantum (num den : Nat) (e : Int) :
    ((num * 2 ^ (-e).toNat : Nat) : ℚ) / ((den * 2 ^ e.toNat : Nat) : ℚ) * 2 ^ e
      = (num : ℚ) / den := by
  rw [scaled_ratio, mul_assoc, ← zpow_add₀ (by norm_num)]
  simp

theorem roundMant_le (num den : Nat) (hd : 0 < den) (k : Nat)
    (h : (num : ℚ) / den ≤ k * 2 ^ quantum num den) : roundMant num den ≤ k := by
  unfold roundMant
  have hD := scaled_den_pos den (quantum num den) hd
  have hDq : (0 : ℚ) < ((den * 2 ^ (quantum num den).toNat : Nat) : ℚ) := by exact_mod_cast hD
  rw [← roundHalfEven_mul k 1 Nat.one_pos]
  apply roundHalfEven_mono _ _ _ _ hD Nat.one_pos
  rw [← scaled_ratio_quantum num den (quantum num den)] at h
  have h' := le_of_mul_le_mul_right h (by positivity)
  rw [div_le_iff₀ hDq] at h'
  have : ((num * 2 ^ (-quantum num den).toNat * 1 : Nat) : ℚ)
      ≤ ((k * 1 * (den * 2 ^ (quantum num den).toNat) : Nat) : ℚ) := by
    push_cast; push_cast at h'; linarith
  exact_mod_cast this

theorem roundMant_ge (num den : Nat) (hd : 0 < den) (k : Nat)
    (h : (k : ℚ) * 2 ^ quantum num den ≤ (num : ℚ) / den) : k ≤ roundMant num den := by
  unfold roundMant
  have hD := scaled_den_pos den (quantum num den) hd
  have hDq : (0 : ℚ) < ((den * 2 ^ (quantum num den).toNat : Nat) : ℚ) := by exact_mod_cast hD
  conv_lhs => rw [← roundHalfEven_mul k 1 Nat.one_pos]
  apply roundHalfEven_mono _ _ _ _ Nat.one_pos hD
  rw [← scaled_ratio_quantum num den (quantum num den)] at h
  have h' := le_of_mul_le_mul_right h (by positivity)
  rw [le_div_iff₀ hDq] at h'
  have : ((k * 1 * (den * 2 ^ (quantum num den).toNat) : Nat) : ℚ)
      ≤ ((num * 2 ^ (-quantum num den).toNat * 1 : Nat) : ℚ) := by
    push_cast; push_cast at h'; linarith
  exact_mod_cast this

theorem roundedValue_nonneg (num den : Nat) : 0 ≤ roundedValue num den := by
  unfold roundedValue; positivity

theorem roundedValue_zero (den : Nat) (hd : 0 < den) : roundedValue 0 den = 0 := by
  have : roundMant 0 den = 0 := by
    have := roundMant_le 0 den hd 0 (by simp)
    omega
  unfold roundedValue
  rw [this]; simp

theorem roundedValue_close (num den : Nat) (hd : 0 < den) :
    |roundedValue num den - (num : ℚ) / den| ≤ 2 ^ quantum num den / 2 := by
  have hD := scaled_den_pos den (quantum num den) hd
  have hc := roundHalfEven_close (num * 2 ^ (-quantum num den).toNat)
    (den * 2 ^ (quantum num den).toNat) hD
  have hs := scaled_ratio_quantum num den (quantum num den)
  have hp : (0 : ℚ) < 2 ^ quantum num den := by positivity
  unfold roundedValue roundMant
  rw [← hs, ← sub_mul, abs_mul, abs_of_pos hp]
  calc _ ≤ 1 / 2 * (2 : ℚ) ^ quantum num den := mul_le_mul_of_nonneg_right hc hp.le
    _ = _ := by ring

theorem roundMant_le_two_pow (num den : Nat) (hn : 0 < num) (hd : 0 < den) :
    roundMant num den ≤ 2 ^ 53 := by
  apply roundMant_le num den hd
  have hs := (floorLog2Ratio_spec num den hn hd).2
  have hq : floorLog2Ratio num den + 1 ≤ 53 + quantum num den := by unfold quantum; omega
  calc (num : ℚ) / den ≤ 2 ^ (floorLog2Ratio num den + 1) := hs.le
    _ ≤ 2 ^ (53 + quantum num den) := two_zpow_le hq
    _ = ((2 ^ 53 : Nat) : ℚ) * 2 ^ quantum num den := by
        rw [zpow_add₀ (by norm_num)]; norm_num

theorem roundMant_ge_two_pow (num den : Nat) (hn : 0 < num) (hd : 0 < den)
    (hnorm : -1022 ≤ floorLog2Ratio num den) : 2 ^ 52 ≤ roundMant num den := by
  apply roundMant_ge num den hd
  have hs := (floorLog2Ratio_spec num den hn hd).1
  have hq : 52 + quantum num den = floorLog2Ratio num den := by unfold quantum; omega
  calc ((2 ^ 52 : Nat) : ℚ) * 2 ^ quantum num den = 2 ^ (52 + quantum num den) := by
        rw [zpow_add₀ (by norm_num)]; norm_num
    _ = 2 ^ floorLog2Ratio num den := by rw [hq]
    _ ≤ _ := hs

theorem roundedValue_mono (a b c d : Nat) (hb : 0 < b) (hd : 0 < d)
    (h : (a : ℚ) / b ≤ (c : ℚ) / d) : roundedValue a b ≤ roundedValue c d := by
  rcases Nat.eq_zero_or_pos a with ha | ha
  · subst ha; rw [roundedValue_zero b hb]; exact roundedValue_nonneg _ _
  have hbq : (0 : ℚ) < b := by exact_mod_cast hb
  have hdq : (0 : ℚ) < d := by exact_mod_cast hd
  have hc : 0 < c := by
    rcases Nat.eq_zero_or_pos c with hc | hc
    · subst hc
      have : (0 : ℚ) < (a : ℚ) / b := by positivity
      simp at h; linarith
    · exact hc
  have hq := quantum_mono a b c d ha hb hc hd h
  rcases eq_or_lt_of_le hq with heq | hlt
  · unfold roundedValue
    rw [← heq]
    apply mul_le_mul_of_nonneg_right _ (by positivity)
    have : roundMant a b ≤ roundMant c d := by
      unfold roundMant
      rw [← heq]
      apply roundHalfEven_mono _ _ _ _ (scaled_den_pos b _ hb) (scaled_den_pos d _ hd)
      rw [div_le_div_iff₀ hbq hdq] at h
      have h' : a * d ≤ c * b := by exact_mod_cast h
      calc a * 2 ^ (-quantum a b).toNat * (d * 2 ^ (quantum a b).toNat)
          = a * d * (2 ^ (-quantum a b).toNat * 2 ^ (quantum a b).toNat) := by ring
        _ ≤ c * b * (2 ^ (-quantum a b).toNat * 2 ^ (quantum a b).toNat) :=
            Nat.mul_le_mul_right _ h'
        _ = _ := by ring
    exact_mod_cast this
  · have h1 := roundMant_le_two_pow a b ha hb
    have hnorm : -1022 ≤ floorLog2Ratio c d := by
      have : -1074 ≤ quantum a b := by unfold quantum; omega
      unfold quantum at hlt
      omega
    have h2 := roundMant_ge_two_pow c d hc hd hnorm
    have h1q : (roundMant a b : ℚ) ≤ 2 ^ 53 := by exact_mod_cast h1
    have h2q : (2 : ℚ) ^ 52 ≤ roundMant c d := by exact_mod_cast h2
    unfold roundedValue
    calc (roundMant a b : ℚ) * 2 ^ quantum a b ≤ 2 ^ 53 * 2 ^ quantum a b :=
          mul_le_mul_of_nonneg_right h1q (by positivity)
      _ = 2 ^ (53 + quantum a b) := by rw [zpow_add₀ (by norm_num)]; norm_num
      _ ≤ 2 ^ (52 + quantum c d) := two_zpow_le (by omega)
      _ = 2 ^ 52 * 2 ^ quantum c d := by rw [zpow_add₀ (by norm_num)]; norm_num
      _ ≤ _ := mul_le_mul_of_nonneg_right h2q (by positivity)

end Float64

namespace Float64

theorem roundRatio_fin (neg : Bool) (num den : Nat) (hd : 0 < den)
    (h : num = 0 ∨ floorLog2Ratio num den ≤ 1022) :
    ∃ m e, roundRatio neg num den = fin neg m e ∧ (m : ℚ) * 2 ^ e = roundedValue num den ∧
      (num = 0 → m = 0) ∧
      (num ≠ 0 → m < 2 ^ 53 ∧ quantum num den ≤ e ∧ e ≤ quantum num den + 1) := by
  unfold roundRatio
  by_cases h0 : num = 0
  · rw [if_pos h0]
    subst h0
    exact ⟨0, -1074, rfl, by rw [roundedValue_zero den hd]; simp, fun _ => rfl,
      fun hc => absurd rfl hc⟩
  · rw [if_neg h0]
    have hE : floorLog2Ratio num den ≤ 1022 := by
      rcases h with h | h
      · exact absurd h h0
      · exact h
    have hq : quantum num den ≤ 970 := by unfold quantum; omega
    have hle := roundMant_le_two_pow num den (Nat.pos_of_ne_zero h0) hd
    simp only
    by_cases hm : roundMant num den = 2 ^ 53
    · rw [if_pos hm, if_pos hm, if_neg (by omega)]
      refine ⟨2 ^ 52, quantum num den + 1, rfl, ?_, fun hc => absurd hc h0,
        fun _ => ⟨by norm_num, by omega, le_rfl⟩⟩
      unfold roundedValue
      rw [hm, zpow_add₀ (by norm_num)]
      norm_num
      ring
    · rw [if_neg hm, if_neg hm, if_neg (by omega)]
      exact ⟨roundMant num den, quantum num den, rfl, rfl, fun hc => absurd hc h0,
        fun _ => ⟨by omega, le_rfl, by omega⟩⟩

theorem roundedValue_bounds (num den : Nat) (hn : 0 < num) (hd : 0 < den)
    (hnorm : -1022 ≤ floorLog2Ratio num den) :
    (2 : ℚ) ^ floorLog2Ratio num den ≤ roundedValue num den ∧
    roundedValue num den ≤ 2 ^ (floorLog2Ratio num den + 1) := by
  have h1 := roundMant_le_two_pow num den hn hd
  have h2 := roundMant_ge_two_pow num den hn hd hnorm
  have h1q : (roundMant num den : ℚ) ≤ 2 ^ 53 := by exact_mod_cast h1
  have h2q : (2 : ℚ) ^ 52 ≤ roundMant num den := by exact_mod_cast h2
  have hq : quantum num den = floorLog2Ratio num den - 52 := by unfold quantum; omega
  unfold roundedValue
  rw [hq]
  constructor
  · calc (2 : ℚ) ^ floorLog2Ratio num den = 2 ^ 52 * 2 ^ (floorLog2Ratio num den - 52) := by
          rw [zpow_sub₀ (by norm_num)]; norm_num; field_simp
      _ ≤ _ := mul_le_mul_of_nonneg_right h2q (by positivity)
  · calc (roundMant num den : ℚ) * 2 ^ (floorLog2Ratio num den - 52)
          ≤ 2 ^ 53 * 2 ^ (floorLog2Ratio num den - 52) :=
          mul_le_mul_of_nonneg_right h1q (by positivity)
      _ = 2 ^ (floorLog2Ratio num den + 1) := by
          rw [zpow_sub₀ (by norm_num), zpow_add₀ (by norm_num)]; norm_num; field_simp; ring

/-- In the normal range one rounding has relative error at most `2^-53`. -/
theorem roundedValue_rel (num den : Nat) (hn : 0 < num) (hd : 0 < den)
    (hnorm : -1022 ≤ floorLog2Ratio num den) :
    |roundedValue num den - (num : ℚ) / den| ≤ (num : ℚ) / den / 2 ^ 53 := by
  have hc := roundedValue_close num den hd
  have hs := (floorLog2Ratio_spec num den hn hd).1
  have hq : quantum num den = floorLog2Ratio num den - 52 := by unfold quantum; omega
  rw [hq] at hc
  refine le_trans hc ?_
  rw [zpow_sub₀ (by norm_num)]
  rw [div_div, div_le_div_iff₀ (by positivity) (by positivity)]
  have : (0 : ℚ) ≤ 2 ^ floorLog2Ratio num den := by positivity
  norm_num
  nlinarith

end Float64

theorem ofInt_billion : Float64.ofInt 1000000000 = Float64.fin false 8388608000000000 (-23) := by
  decide

theorem natAbs_le_of_isInt64 (n : Int) (h : IsInt64 n) : n.natAbs ≤ 2 ^ 63 := by
  unfold IsInt64 at h; omega

theorem floorLog2Ratio_natAbs (k : Nat) (hk : 0 < k) (h : k ≤ 2 ^ 63) :
    0 ≤ Float64.floorLog2Ratio k 1 ∧ Float64.floorLog2Ratio k 1 ≤ 63 := by
  have hk1 : (1 : ℚ) ≤ (k : ℚ) := by exact_mod_cast hk
  have hk2 : (k : ℚ) ≤ 2 ^ 63 := by exact_mod_cast h
  constructor
  · apply Float64.floorLog2Ratio_ge k 1 hk Nat.one_pos
    simpa using hk1
  · have := Float64.floorLog2Ratio_lt k 1 hk Nat.one_pos 64 (by
      simp only [Nat.cast_one, div_one]
      calc (k : ℚ) ≤ 2 ^ 63 := hk2
        _ < 2 ^ (64 : Int) := by norm_num)
    omega

/-- The conversion `float64(n)` of an int64 is finite, carries the sign of `n` and has
magnitude the rounding of `|n|`. -/
theorem ofInt_spec (n : Int) (h : n.natAbs ≤ 2 ^ 63) :
    ∃ m e, Float64.ofInt n = Float64.fin (decide (n < 0)) m e ∧
      (m : ℚ) * 2 ^ e = Float64.roundedValue n.natAbs 1 := by
  unfold Float64.ofInt
  have hex : ∀ (x : ∃ m e, Float64.roundRatio (decide (n < 0)) n.natAbs 1
      = Float64.fin (decide (n < 0)) m e ∧ (m : ℚ) * 2 ^ e = Float64.roundedValue n.natAbs 1 ∧
      (n.natAbs = 0 → m = 0) ∧ (n.natAbs ≠ 0 → m < 2 ^ 53 ∧ Float64.quantum n.natAbs 1 ≤ e
        ∧ e ≤ Float64.quantum n.natAbs 1 + 1)),
      ∃ m e, Float64.roundRatio (decide (n < 0)) n.natAbs 1 = Float64.fin (decide (n < 0)) m e ∧
      (m : ℚ) * 2 ^ e = Float64.roundedValue n.natAbs 1 :=
    fun ⟨m, e, a, b, _⟩ => ⟨m, e, a, b⟩
  apply hex
  apply Float64.roundRatio_fin _ _ _ Nat.one_pos
  rcases Nat.eq_zero_or_pos n.natAbs with h0 | h0
  · left; exact h0
  · right
    have := (floorLog2Ratio_natAbs n.natAbs h0 h).2
    omega

theorem roundedValue_natAbs_bounds (k : Nat) (hk : 0 < k) (h : k ≤ 2 ^ 63) :
    1 ≤ Float64.roundedValue k 1 ∧ Float64.roundedValue k 1 ≤ 2 ^ 63 := by
  obtain ⟨e0, e1⟩ := floorLog2Ratio_natAbs k hk h
  obtain ⟨b0, _⟩ := Float64.roundedValue_bounds k 1 hk Nat.one_pos (by omega)
  constructor
  · calc (1 : ℚ) = 2 ^ (0 : Int) := by norm_num
      _ ≤ 2 ^ Float64.floorLog2Ratio k 1 := Float64.two_zpow_le e0
      _ ≤ _ := b0
  · have hmono := Float64.roundedValue_mono k 1 (2 ^ 63) 1 Nat.one_pos Nat.one_pos (by
      simp only [Nat.cast_one, div_one]; exact_mod_cast h)
    have hv : Float64.roundedValue (2 ^ 63) 1 = 2 ^ 63 := by
      have : Float64.roundMant (2 ^ 63) 1 = 2 ^ 52 ∧ Float64.quantum (2 ^ 63) 1 = 11 := by
        decide
      unfold Float64.roundedValue
      rw [this.1, this.2]
      norm_num
    rw [hv] at hmono
    exact hmono

/-- The timestamp of an int64 reading is a finite float64 with the sign of the reading whose
magnitude is the rounding of a ratio equal to `float64(|n|) / 10^9`. -/
theorem timestampOf_spec (n : Int) (h : n.natAbs ≤ 2 ^ 63) :
    ∃ (A B m : Nat) (e : Int), 0 < B ∧ (A : ℚ) / B = Float64.roundedValue n.natAbs 1 / 10 ^ 9 ∧
      timestampOf n = Float64.fin (decide (n < 0)) m e ∧
      (m : ℚ) * 2 ^ e = Float64.roundedValue A B ∧
      (n ≠ 0 → 0 < A ∧ -1022 ≤ Float64.floorLog2Ratio A B) ∧
      (m ≠ 0 → m < 2 ^ 53 ∧ -300 ≤ e ∧ e ≤ 100) := by
  obtain ⟨m0, e0, hof, hval⟩ := ofInt_spec n h
  have hB : 0 < 8388608000000000 * 2 ^ (-23 - e0).toNat := by positivity
  have hratio : ((m0 * 2 ^ (e0 - -23).toNat : Nat) : ℚ)
      / ((8388608000000000 * 2 ^ (-23 - e0).toNat : Nat) : ℚ)
      = Float64.roundedValue n.natAbs 1 / 10 ^ 9 := by
    have hs := Float64.scaled_ratio m0 8388608000000000 (-23 - e0)
    rw [show -(-23 - e0) = e0 - -23 by ring] at hs
    rw [hs, ← hval, zpow_sub₀ (by norm_num)]
    norm_num
    field_simp
    ring
  have hts : timestampOf n = Float64.roundRatio (decide (n < 0)) (m0 * 2 ^ (e0 - -23).toNat)
      (8388608000000000 * 2 ^ (-23 - e0).toNat) := by
    unfold timestampOf
    rw [hof, ofInt_billion]
    simp [Float64.div]
  by_cases hn : n = 0
  · subst hn
    have hz : Float64.roundedValue (0 : Int).natAbs 1 = 0 := by
      simpa using Float64.roundedValue_zero 1 Nat.one_pos
    have hm0 : m0 = 0 := by
      rw [hz] at hval
      have hp : (2 : ℚ) ^ e0 ≠ 0 := by positivity
      have := (mul_eq_zero.mp hval).resolve_right hp
      exact_mod_cast this
    obtain ⟨m, e, h1, h2, h3, _⟩ := Float64.roundRatio_fin (decide ((0 : Int) < 0))
      (m0 * 2 ^ (e0 - -23).toNat) (8388608000000000 * 2 ^ (-23 - e0).toNat) hB
      (Or.inl (by rw [hm0]; simp))
    exact ⟨_, _, m, e, hB, hratio, hts.trans h1, h2, fun hc => absurd rfl hc,
      fun hc => absurd (h3 (by rw [hm0]; simp)) hc⟩
  · have hk : 0 < n.natAbs := Int.natAbs_pos.mpr hn
    obtain ⟨v1, v2⟩ := roundedValue_natAbs_bounds n.natAbs hk h
    have hBq : (0 : ℚ) < ((8388608000000000 * 2 ^ (-23 - e0).toNat : Nat) : ℚ) := by
      exact_mod_cast hB
    have hA : 0 < m0 * 2 ^ (e0 - -23).toNat := by
      rcases Nat.eq_zero_or_pos (m0 * 2 ^ (e0 - -23).toNat) with hz | hp
      · rw [hz] at hratio
        simp only [Nat.cast_zero, zero_div] at hratio
        have : (0 : ℚ) < Float64.roundedValue n.natAbs 1 / 10 ^ 9 := by positivity
        linarith
      · exact hp
    have hlo30 : -30 ≤ Float64.floorLog2Ratio (m0 * 2 ^ (e0 - -23).toNat)
        (8388608000000000 * 2 ^ (-23 - e0).toNat) := by
      have := Float64.floorLog2Ratio_ge _ _ hA hB (-30) (by
        rw [hratio]
        calc (2 : ℚ) ^ (-30 : Int) ≤ 1 / 10 ^ 9 := by norm_num
          _ ≤ _ := by
            apply div_le_div_of_nonneg_right v1; positivity)
      omega
    have hlo : -1022 ≤ Float64.floorLog2Ratio (m0 * 2 ^ (e0 - -23).toNat)
        (8388608000000000 * 2 ^ (-23 - e0).toNat) := by omega
    have hhi63 : Float64.floorLog2Ratio (m0 * 2 ^ (e0 - -23).toNat)
        (8388608000000000 * 2 ^ (-23 - e0).toNat) ≤ 63 := by
      have := Float64.floorLog2Ratio_lt _ _ hA hB 64 (by
        rw [hratio]
        calc Float64.roundedValue n.natAbs 1 / 10 ^ 9 ≤ 2 ^ 63 / 10 ^ 9 := by
              apply div_le_div_of_nonneg_right v2; positivity
          _ < 2 ^ (64 : Int) := by norm_num)
      omega
    have hhi : Float64.floorLog2Ratio (m0 * 2 ^ (e0 - -23).toNat)
        (8388608000000000 * 2 ^ (-23 - e0).toNat) ≤ 1022 := by omega
    obtain ⟨m, e, h1, h2, _, h4⟩ := Float64.roundRatio_fin (decide (n < 0))
      (m0 * 2 ^ (e0 - -23).toNat) (8388608000000000 * 2 ^ (-23 - e0).toNat) hB (Or.inr hhi)
    obtain ⟨b1, b2, b3⟩ := h4 (by omega)
    have hq1 : -1074 ≤ Float64.quantum (m0 * 2 ^ (e0 - -23).toNat)
        (8388608000000000 * 2 ^ (-23 - e0).toNat) := by unfold Float64.quantum; omega
    have hq2 : Float64.quantum (m0 * 2 ^ (e0 - -23).toNat)
        (8388608000000000 * 2 ^ (-23 - e0).toNat) ≤ 11 := by unfold Float64.quantum; omega
    have hq3 : -300 ≤ Float64.quantum (m0 * 2 ^ (e0 - -23).toNat)
        (8388608000000000 * 2 ^ (-23 - e0).toNat) := by unfold Float64.quantum; omega
    exact ⟨_, _, m, e, hB, hratio, hts.trans h1, h2, fun _ => ⟨hA, hlo⟩,
      fun _ => ⟨b1, by omega, by omega⟩⟩

/-! The handler -/

theorem response_timestamp (now : Int) : (response now).Timestamp = timestampOf now := rfl

theorem timestampOf_fin (n : Int) (h : IsInt64 n) :
    ∃ m e, timestampOf n = Float64.fin (decide (n < 0)) m e := by
  obtain ⟨_, _, m, e, _, _, ht, _⟩ := timestampOf_spec n (natAbs_le_of_isInt64 n h)
  exact ⟨m, e, ht⟩

theorem marshal_response (now : Int) (neg : Bool) (m : Nat) (e : Int)
    (h : timestampOf now = Float64.fin neg m e) :
    Json.marshal (response now) = .ok (objectText (Json.floatText neg m e)) := by
  have hs1 : Json.encodeString "message" = "\"message\"".data := by decide
  have hs2 : Json.encodeString "timestamp" = "\"timestamp\"".data := by decide
  have hs3 : Json.encodeString "language" = "\"language\"".data := by decide
  have hs4 : Json.encodeString "Hello from Golang API!" = "\"Hello from Golang API!\"".data := by
    decide
  have hs5 : Json.encodeString "Golang" = "\"Golang\"".data := by decide
  unfold Json.marshal Json.encodeStruct APIResponse.fields
  simp only [Json.encodeFields, Json.encodeValue, response_timestamp, h, Json.encodeFloat]
  have hm : (response now).Message = "Hello from Golang API!" := rfl
  have hl : (response now).Language = "Golang" := rfl
  simp only [hm, hl, hs1, hs2, hs3, hs4, hs5]
  simp [objectText, bind, Except.bind, pure, Except.pure]

theorem handlerRun_eq (w : ResponseWriter) (r : Request) (now : Int) (neg : Bool) (m : Nat)
    (e : Int) (h : timestampOf now = Float64.fin neg m e) :
    handlerRun w r now =
      (w.setHeader "Content-Type" "application/json").write
        (objectText (Json.floatText neg m e) ++ ['\n']) := by
  unfold handlerRun Json.encode
  simp only [marshal_response now neg m e h]

/-! The float text is a JSON number -/

namespace Strconv

theorem digitChar_isDigit (d : Nat) (h : d < 10) : (digitChar d).isDigit = true := by
  interval_cases d <;> decide

theorem digitChar_ne_zero (d : Nat) (h0 : d ≠ 0) (h : d < 10) : digitChar d ≠ '0' := by
  interval_cases d <;> first | exact absurd rfl h0 | decide

theorem digitsAux_wf : ∀ (fuel n : Nat) (acc : List Nat), 0 < n → n ≤ fuel →
    (∀ d ∈ acc, d < 10) →
    ∃ h t, digitsAux fuel n acc = h :: t ∧ h ≠ 0 ∧ h < 10 ∧ ∀ d ∈ t, d < 10 := by
  intro fuel
  induction fuel with
  | zero => intro n acc h0 h1; omega
  | succ f ih =>
    intro n acc h0 h1 hacc
    unfold digitsAux
    by_cases hn : n < 10
    · rw [if_pos hn]
      exact ⟨n, acc, rfl, by omega, hn, hacc⟩
    · rw [if_neg hn]
      apply ih (n / 10) (n % 10 :: acc) (by omega) (by omega)
      intro d hd
      rcases List.mem_cons.mp hd with h | h
      · rw [h]; omega
      · exact hacc d h

theorem digits_wf (n : Nat) (h : 0 < n) :
    ∃ h t, digits n = h :: t ∧ h ≠ 0 ∧ h < 10 ∧ ∀ d ∈ t, d < 10 :=
  digitsAux_wf n n [] h le_rfl (by simp)

theorem dropWhile_append_singleton (p : Nat → Bool) (a : List Nat) (h : Nat) (hp : p h = false) :
    (a ++ [h]).dropWhile p = a.dropWhile p ++ [h] := by
  induction a with
  | nil => simp [List.dropWhile, hp]
  | cons x xs ih =>
    simp only [List.cons_append, List.dropWhile]
    cases p x <;> simp [ih]

theorem stripTrailingZeros_cons (h : Nat) (t : List Nat) (h0 : h ≠ 0) :
    ∃ t', stripTrailingZeros (h :: t) = h :: t' ∧ ∀ d ∈ t', d ∈ t := by
  unfold stripTrailingZeros
  rw [List.reverse_cons, dropWhile_append_singleton _ _ _ (by simpa using h0)]
  refine ⟨(t.reverse.dropWhile (fun d => d == 0)).reverse, by simp, ?_⟩
  intro d hd
  have := (List.dropWhile_sublist (fun d => d == 0) (l := t.reverse)).subset (List.mem_reverse.mp hd)
  exact List.mem_reverse.mp this

theorem mkDecimal_wf (c : Nat) (s : Int) (hc : 0 < c) : (mkDecimal c s).WellFormed := by
  obtain ⟨h, t, e, h0, h1, ht⟩ := digits_wf c hc
  obtain ⟨t', e', ht'⟩ := stripTrailingZeros_cons h t h0
  exact ⟨h, t', by simp [mkDecimal, e, e'], h0, h1, fun d hd => ht d (ht' d hd)⟩

theorem roundTrips_pos (m : Nat) (e : Int) (c : Nat) (s : Int) (hm : m ≠ 0)
    (h : roundTrips m e c s = true) : 0 < c := by
  rcases Nat.eq_zero_or_pos c with hc | hc
  · subst hc
    unfold roundTrips Float64.roundRatio at h
    simp at h
    exact absurd h.1.symm hm
  · exact hc

theorem shortestAux_wf (m : Nat) (e : Int) (C : Nat) (S : Int) (L : Nat) (hm : m ≠ 0)
    (hC : 0 < C) : ∀ (fuel k : Nat), (shortestAux m e C S L fuel k).WellFormed := by
  intro fuel
  induction fuel with
  | zero => intro k; exact mkDecimal_wf C S hC
  | succ f ih =>
    intro k
    unfold shortestAux
    simp only
    by_cases hd : roundTrips m e (C / 10 ^ (L - k)) (S + ((L - k : Nat) : Int)) = true
    · have hlo := roundTrips_pos m e _ _ hm hd
      by_cases hu : roundTrips m e (C / 10 ^ (L - k) + 1) (S + ((L - k : Nat) : Int)) = true
      · simp only [hd, hu, Bool.and_self, if_true]
        split
        · exact mkDecimal_wf _ _ hlo
        · exact mkDecimal_wf _ _ (Nat.succ_pos _)
      · simp only [hd, hu, Bool.and_false, Bool.false_eq_true, if_false, if_true]
        exact mkDecimal_wf _ _ hlo
    · by_cases hu : roundTrips m e (C / 10 ^ (L - k) + 1) (S + ((L - k : Nat) : Int)) = true
      · simp only [hd, hu, Bool.and_true, Bool.false_eq_true, if_false, if_true]
        exact mkDecimal_wf _ _ (Nat.succ_pos _)
      · simp only [hd, hu, Bool.and_self, Bool.false_eq_true, if_false]
        exact ih (k + 1)

theorem exactDecimal_pos (m : Nat) (e : Int) (hm : m ≠ 0) : 0 < (exactDecimal m e).1 := by
  unfold exactDecimal
  have : 0 < m := Nat.pos_of_ne_zero hm
  split <;> simp only <;> positivity

theorem shortest_wf (m : Nat) (e : Int) (hm : m ≠ 0) : (shortest m e).WellFormed := by
  unfold shortest
  rw [if_neg hm]
  exact shortestAux_wf m e _ _ _ hm (exactDecimal_pos m e hm) 17 1

end Strconv

namespace Strconv

theorem digitAt_isDigit (ds : List Nat) (h : ∀ d ∈ ds, d < 10) (i : Nat) :
    (digitAt ds i).isDigit = true := by
  unfold digitAt
  split
  · rename_i hi
    apply digitChar_isDigit
    apply h
    rw [List.getD_eq_getElem _ _ hi]
    exact List.getElem_mem _
  · decide

theorem digitAt_head (h : Nat) (t : List Nat) : digitAt (h :: t) 0 = digitChar h := by
  simp [digitAt]

theorem isDigits_map_range (n : Nat) (f : Nat → Char) (hn : 0 < n)
    (hf : ∀ i, (f i).isDigit = true) : IsDigits ((List.range n).map f) := by
  constructor
  · intro hc
    have := congrArg List.length hc
    simp at this
    omega
  · intro c hc
    obtain ⟨i, _, rfl⟩ := List.mem_map.mp hc
    exact hf i

theorem head_map_range (n : Nat) (f : Nat → Char) (hn : 0 < n) :
    ((List.range n).map f).head? = some (f 0) := by
  obtain ⟨k, rfl⟩ : ∃ k, n = k + 1 := ⟨n - 1, by omega⟩
  rw [List.range_succ_eq_map]
  simp

theorem isJSONFrac_fmt (prec : Nat) (f : Nat → Char) (hf : ∀ i, (f i).isDigit = true) :
    IsJSONFrac (if 0 < prec then '.' :: (List.range prec).map f else []) := by
  split
  · rename_i hp
    exact Or.inr ⟨_, rfl, isDigits_map_range prec f hp hf⟩
  · exact Or.inl rfl

theorem fmtF_isJSONNumber (neg : Bool) (dec : Decimal) (prec : Nat)
    (hall : ∀ d ∈ dec.d, d < 10)
    (hhead : 0 < dec.dp → ∃ h t, dec.d = h :: t ∧ h ≠ 0) :
    IsJSONNumber (fmtF neg dec prec) := by
  unfold fmtF
  refine ⟨_, _, _, [], by simp only [List.append_nil]; rfl, ?_, ?_, ?_, Or.inl rfl⟩
  · cases neg <;> simp
  · split
    · rename_i hdp
      right
      have hpos : 0 < dec.dp.toNat := by omega
      refine ⟨isDigits_map_range _ _ hpos (digitAt_isDigit dec.d hall), ?_⟩
      rw [head_map_range _ _ hpos]
      obtain ⟨h, t, e, h0⟩ := hhead hdp
      rw [e, digitAt_head]
      have hlt : h < 10 := hall h (by rw [e]; exact List.mem_cons_self _ _)
      intro hc
      exact digitChar_ne_zero h h0 hlt (Option.some.inj hc)
    · exact Or.inl rfl
  · apply isJSONFrac_fmt
    intro i
    split
    · exact digitAt_isDigit dec.d hall _
    · decide

theorem expDigits_isDigits (a : Nat) (ha : a < 1000) :
    IsDigits (if a < 10 then ['0', digitChar a]
      else if a < 100 then [digitChar (a / 10), digitChar (a % 10)]
      else [digitChar (a / 100), digitChar (a / 10 % 10), digitChar (a % 10)]) := by
  split
  · refine ⟨by simp, ?_⟩
    intro c hc
    simp only [List.mem_cons, List.mem_singleton, List.not_mem_nil, or_false] at hc
    rcases hc with rfl | rfl
    · decide
    · exact digitChar_isDigit _ (by omega)
  · split
    · refine ⟨by simp, ?_⟩
      intro c hc
      simp only [List.mem_cons, List.mem_singleton, List.not_mem_nil, or_false] at hc
      rcases hc with rfl | rfl <;> exact digitChar_isDigit _ (by omega)
    · refine ⟨by simp, ?_⟩
      intro c hc
      simp only [List.mem_cons, List.mem_singleton, List.not_mem_nil, or_false] at hc
      rcases hc with rfl | rfl | rfl <;> exact digitChar_isDigit _ (by omega)

end Strconv

namespace Json

theorem cleanExponent_two (pre : List Char) (s x y : Char) (hs : s = '-' ∨ s = '+') :
    cleanExponent (pre ++ ['e', s, x, y]) =
      if x = '0' then pre ++ ['e', s, y] else pre ++ ['e', s, x, y] := by
  unfold cleanExponent
  have hn : (pre ++ ['e', s, x, y]).length = pre.length + 4 := by simp
  simp only [hn]
  have i0 : pre.length + 4 - 4 = pre.length + 0 := by omega
  have i1 : pre.length + 4 - 3 = pre.length + 1 := by omega
  have i2 : pre.length + 4 - 2 = pre.length + 2 := by omega
  have i3 : pre.length + 4 - 1 = pre.length + 3 := by omega
  have g : ∀ k, (pre ++ ['e', s, x, y]).getD (pre.length + k) ' ' = ['e', s, x, y].getD k ' ' := by
    intro k
    simp [List.getD_eq_getElem?_getD, List.getElem?_append_right]
  rw [i0, i1, i2, i3, g, g, g, g]
  have ht : (pre ++ ['e', s, x, y]).take (pre.length + 2) = pre ++ ['e', s] := by
    rw [List.take_append]; simp
  rw [ht]
  by_cases hx : x = '0'
  · simp [hx, hs]
  · simp [hx]

theorem cleanExponent_three (pre : List Char) (s x y z : Char) (hs : s ≠ 'e') :
    cleanExponent (pre ++ ['e', s, x, y, z]) = pre ++ ['e', s, x, y, z] := by
  unfold cleanExponent
  have hn : (pre ++ ['e', s, x, y, z]).length = pre.length + 5 := by simp
  simp only [hn]
  have i0 : pre.length + 5 - 4 = pre.length + 1 := by omega
  have g : ∀ k, (pre ++ ['e', s, x, y, z]).getD (pre.length + k) ' '
      = ['e', s, x, y, z].getD k ' ' := by
    intro k
    simp [List.getD_eq_getElem?_getD, List.getElem?_append_right]
  rw [i0, g]
  simp [hs]

end Json

namespace Strconv

theorem isJSONNumber_exp (sign : List Char) (first : Char) (frac : List Char) (s : Char)
    (ds : List Char) (hsign : sign = [] ∨ sign = ['-']) (hfirst : first.isDigit = true)
    (hfrac : IsJSONFrac frac) (hs : s = '-' ∨ s = '+') (hds : IsDigits ds) :
    IsJSONNumber (sign ++ [first] ++ frac ++ ('e' :: s :: ds)) := by
  refine ⟨sign, [first], frac, 'e' :: s :: ds, rfl, hsign, ?_, hfrac, ?_⟩
  · by_cases h0 : first = '0'
    · left; rw [h0]
    · right
      refine ⟨⟨by simp, ?_⟩, ?_⟩
      · intro c hc
        rw [List.mem_singleton.mp hc]; exact hfirst
      · simpa using h0
  · right
    refine ⟨'e', [s], ds, rfl, Or.inl rfl, ?_, hds⟩
    rcases hs with rfl | rfl
    · right; right; rfl
    · right; left; rfl

/-- The `%e` layout followed by the encoder's exponent clean-up is a JSON number. -/
theorem cleanExponent_fmtE_isJSONNumber (neg : Bool) (dec : Decimal) (prec : Int)
    (hwf : dec.WellFormed) (hdp : dec.dp.natAbs < 999) :
    IsJSONNumber (Json.cleanExponent (fmtE neg dec prec)) := by
  obtain ⟨h, t, hd, h0, h1, ht⟩ := hwf
  have hall : ∀ d ∈ dec.d, d < 10 := by
    intro d hmem
    rw [hd] at hmem
    rcases List.mem_cons.mp hmem with e | e
    · rw [e]; exact h1
    · exact ht d e
  have hlen : dec.d.length ≠ 0 := by rw [hd]; simp
  unfold fmtE
  simp only [if_neg hlen]
  set sign : List Char := if neg then ['-'] else [] with hsign_def
  have hsign : sign = [] ∨ sign = ['-'] := by rw [hsign_def]; cases neg <;> simp
  set frac : List Char :=
    if 0 < prec then '.' :: (List.range prec.toNat).map (fun i => digitAt dec.d (i + 1)) else []
    with hfrac_def
  have hfrac : IsJSONFrac frac := by
    rw [hfrac_def]
    split
    · rename_i hp
      exact Or.inr ⟨_, rfl, isDigits_map_range _ _ (by omega) (fun i => digitAt_isDigit _ hall _)⟩
    · exact Or.inl rfl
  have hfirst : (digitAt dec.d 0).isDigit = true := digitAt_isDigit _ hall _
  set s : Char := if dec.dp - 1 < 0 then '-' else '+' with hs_def
  have hs : s = '-' ∨ s = '+' := by rw [hs_def]; split <;> simp
  have hse : s ≠ 'e' := by rcases hs with e | e <;> rw [e] <;> decide
  have ha : (dec.dp - 1).natAbs < 1000 := by omega
  have hed := expDigits_isDigits (dec.dp - 1).natAbs ha
  set a := (dec.dp - 1).natAbs
  by_cases c1 : a < 10
  · simp only [if_pos c1] at hed ⊢
    have e1 : sign ++ [digitAt dec.d 0] ++ frac ++ ['e', s] ++ ['0', digitChar a]
        = (sign ++ [digitAt dec.d 0] ++ frac) ++ ['e', s, '0', digitChar a] := by simp
    rw [e1, Json.cleanExponent_two _ _ _ _ hs, if_pos rfl]
    apply isJSONNumber_exp _ _ _ _ _ hsign hfirst hfrac hs
    exact ⟨by simp, fun c hc => by
      rw [List.mem_singleton.mp hc]; exact digitChar_isDigit _ (by omega)⟩
  · simp only [if_neg c1] at hed ⊢
    by_cases c2 : a < 100
    · simp only [if_pos c2] at hed ⊢
      have e1 : sign ++ [digitAt dec.d 0] ++ frac ++ ['e', s]
            ++ [digitChar (a / 10), digitChar (a % 10)]
          = (sign ++ [digitAt dec.d 0] ++ frac)
            ++ ['e', s, digitChar (a / 10), digitChar (a % 10)] := by simp
      rw [e1, Json.cleanExponent_two _ _ _ _ hs]
      have hne : digitChar (a / 10) ≠ '0' := digitChar_ne_zero _ (by omega) (by omega)
      rw [if_neg hne]
      exact isJSONNumber_exp _ _ _ _ _ hsign hfirst hfrac hs hed
    · simp only [if_neg c2] at hed ⊢
      have e1 : sign ++ [digitAt dec.d 0] ++ frac ++ ['e', s]
            ++ [digitChar (a / 100), digitChar (a / 10 % 10), digitChar (a % 10)]
          = (sign ++ [digitAt dec.d 0] ++ frac)
            ++ ['e', s, digitChar (a / 100), digitChar (a / 10 % 10), digitChar (a % 10)] := by
        simp
      rw [e1, Json.cleanExponent_three _ _ _ _ _ hse]
      exact isJSONNumber_exp _ _ _ _ _ hsign hfirst hfrac hs hed

end Strconv

namespace Strconv

theorem digitsAux_length : ∀ (fuel n : Nat) (acc : List Nat) (j : Nat), n < 10 ^ (j + 1) →
    (digitsAux fuel n acc).length ≤ acc.length + j + 1 := by
  intro fuel
  induction fuel with
  | zero => intro n acc j _; simp only [digitsAux]; omega
  | succ f ih =>
    intro n acc j hn
    unfold digitsAux
    by_cases h10 : n < 10
    · rw [if_pos h10]; simp only [List.length_cons]; omega
    · rw [if_neg h10]
      obtain ⟨i, rfl⟩ : ∃ i, j = i + 1 := by
        rcases j with _ | i
        · simp at hn; omega
        · exact ⟨i, rfl⟩
      have hdiv : n / 10 < 10 ^ (i + 1) := by
        rw [Nat.div_lt_iff_lt_mul (by norm_num)]
        calc n < 10 ^ (i + 1 + 1) := hn
          _ = 10 ^ (i + 1) * 10 := by ring
      have := ih (n / 10) (n % 10 :: acc) i hdiv
      simp only [List.length_cons] at this
      omega

theorem digits_length (n j : Nat) (h : n < 10 ^ (j + 1)) : (digits n).length ≤ j + 1 := by
  have := digitsAux_length n n [] j h
  simpa [digits] using this

theorem mkDecimal_dp_bounds (c : Nat) (s S : Int) (J sh : Nat) (hs : s = S + sh) (hsh : sh ≤ J)
    (hc : c < 10 ^ (J + 1)) :
    S ≤ (mkDecimal c s).dp ∧ (mkDecimal c s).dp ≤ S + 2 * J + 1 := by
  have := digits_length c J hc
  simp only [mkDecimal, hs]
  omega

theorem shortestAux_dp (m : Nat) (e : Int) (C : Nat) (S : Int) (L J : Nat)
    (hC : C < 10 ^ J) (hL : L ≤ J) : ∀ (fuel k : Nat),
    S ≤ (shortestAux m e C S L fuel k).dp ∧ (shortestAux m e C S L fuel k).dp ≤ S + 2 * J + 1 := by
  have hpow : 10 ^ J < 10 ^ (J + 1) := Nat.pow_lt_pow_right (by norm_num) (Nat.lt_succ_self J)
  intro fuel
  induction fuel with
  | zero =>
    intro k
    exact mkDecimal_dp_bounds C S S J 0 (by simp) (Nat.zero_le _) (lt_trans hC hpow)
  | succ f ih =>
    intro k
    have hlo : C / 10 ^ (L - k) < 10 ^ (J + 1) :=
      lt_of_le_of_lt (Nat.div_le_self _ _) (lt_trans hC hpow)
    have hhi : C / 10 ^ (L - k) + 1 < 10 ^ (J + 1) := by
      have := Nat.div_le_self C (10 ^ (L - k))
      omega
    have blo := mkDecimal_dp_bounds (C / 10 ^ (L - k)) (S + ((L - k : Nat) : Int)) S J (L - k)
      rfl (by omega) hlo
    have bhi := mkDecimal_dp_bounds (C / 10 ^ (L - k) + 1) (S + ((L - k : Nat) : Int)) S J (L - k)
      rfl (by omega) hhi
    unfold shortestAux
    simp only
    split
    · split
      · exact blo
      · exact bhi
    · split
      · exact blo
      · split
        · exact bhi
        · exact ih (k + 1)

theorem exactDecimal_bounds (m : Nat) (e : Int) (hm : m < 2 ^ 53) (h1 : -300 ≤ e)
    (h2 : e ≤ 100) :
    (exactDecimal m e).1 < 10 ^ 226 ∧ -300 ≤ (exactDecimal m e).2 ∧ (exactDecimal m e).2 ≤ 0 := by
  unfold exactDecimal
  split
  · rename_i he
    refine ⟨?_, by simp, by simp⟩
    simp only
    calc m * 2 ^ e.toNat < 2 ^ 53 * 2 ^ e.toNat :=
          Nat.mul_lt_mul_of_pos_right hm (by positivity)
      _ ≤ 2 ^ 53 * 2 ^ 100 :=
          Nat.mul_le_mul_left _ (Nat.pow_le_pow_right (by norm_num) (by omega))
      _ < 10 ^ 226 := by norm_num
  · rename_i he
    refine ⟨?_, by simpa using h1, by simp only; omega⟩
    simp only
    calc m * 5 ^ (-e).toNat < 2 ^ 53 * 5 ^ (-e).toNat :=
          Nat.mul_lt_mul_of_pos_right hm (by positivity)
      _ ≤ 2 ^ 53 * 5 ^ 300 :=
          Nat.mul_le_mul_left _ (Nat.pow_le_pow_right (by norm_num) (by omega))
      _ < 10 ^ 226 := by norm_num

theorem shortest_dp (m : Nat) (e : Int) (hm : m < 2 ^ 53) (h1 : -300 ≤ e) (h2 : e ≤ 100) :
    (shortest m e).dp.natAbs < 999 := by
  unfold shortest
  split
  · simp
  · obtain ⟨b1, b2, b3⟩ := exactDecimal_bounds m e hm h1 h2
    have hL : (digits (exactDecimal m e).1).length ≤ 226 := by
      have := digits_length (exactDecimal m e).1 225 b1
      omega
    have := shortestAux_dp m e (exactDecimal m e).1 (exactDecimal m e).2
      (digits (exactDecimal m e).1).length 226 b1 hL 17 1
    simp only
    omega

end Strconv

/-- The number text the encoder writes for a finite float64 in the stated exponent range is a
JSON number. -/
theorem Json.floatText_isJSONNumber (neg : Bool) (m : Nat) (e : Int)
    (hme : m ≠ 0 → m < 2 ^ 53 ∧ -300 ≤ e ∧ e ≤ 100) : IsJSONNumber (Json.floatText neg m e) := by
  unfold Json.floatText
  simp only
  split
  · rename_i hc
    have hm0 : m ≠ 0 := by
      intro h0
      subst h0
      simp [Float64.abs, Float64.isZero] at hc
    simp only [Strconv.formatFloat, if_true]
    obtain ⟨hm, h1, h2⟩ := hme hm0
    exact Strconv.cleanExponent_fmtE_isJSONNumber neg _ _ (Strconv.shortest_wf m e hm0)
      (Strconv.shortest_dp m e hm h1 h2)
  · have hfe : ('f' = 'e') = False := by simp
    simp only [Strconv.formatFloat, hfe, if_false]
    apply Strconv.fmtF_isJSONNumber
    · by_cases hm0 : m = 0
      · subst hm0; simp [Strconv.shortest]
      · obtain ⟨h, t, hd, _, hh, ht⟩ := Strconv.shortest_wf m e hm0
        intro d hmem
        rw [hd] at hmem
        rcases List.mem_cons.mp hmem with x | x
        · rw [x]; exact hh
        · exact ht d x
    · intro hdp
      by_cases hm0 : m = 0
      · subst hm0; simp [Strconv.shortest] at hdp
      · obtain ⟨h, t, hd, h0, _, _⟩ := Strconv.shortest_wf m e hm0
        exact ⟨h, t, hd, h0⟩

/-! Helper lemmas on the timestamp value -/

theorem toRat_fin (neg : Bool) (m : Nat) (e : Int) :
    (Float64.fin neg m e).toRat = (if neg then -1 else 1) * ((m : ℚ) * 2 ^ e) := by
  simp [Float64.toRat, mul_assoc]

/-- Magnitude and sign of the timestamp: its value is `± t` with `t` the rounding of
`float64(|n|) / 10^9`. -/
theorem timestampOf_value (n : Int) (h : n.natAbs ≤ 2 ^ 63) :
    ∃ (A B : Nat), 0 < B ∧ (A : ℚ) / B = Float64.roundedValue n.natAbs 1 / 10 ^ 9 ∧
      (timestampOf n).isFinite = true ∧
      (timestampOf n).toRat = (if n < 0 then -1 else 1) * Float64.roundedValue A B ∧
      (n ≠ 0 → 0 < A ∧ -1022 ≤ Float64.floorLog2Ratio A B) := by
  obtain ⟨A, B, m, e, hB, hr, ht, hv, hn, _⟩ := timestampOf_spec n h
  refine ⟨A, B, hB, hr, by rw [ht]; rfl, ?_, hn⟩
  rw [ht, toRat_fin, hv]
  by_cases hneg : n < 0 <;> simp [hneg]

theorem timestamp_mag_mono (n1 n2 : Int) (h1 : n1.natAbs ≤ n2.natAbs) (A1 B1 A2 B2 : Nat)
    (hB1 : 0 < B1) (hB2 : 0 < B2)
    (hr1 : (A1 : ℚ) / B1 = Float64.roundedValue n1.natAbs 1 / 10 ^ 9)
    (hr2 : (A2 : ℚ) / B2 = Float64.roundedValue n2.natAbs 1 / 10 ^ 9) :
    Float64.roundedValue A1 B1 ≤ Float64.roundedValue A2 B2 := by
  apply Float64.roundedValue_mono A1 B1 A2 B2 hB1 hB2
  rw [hr1, hr2]
  apply div_le_div_of_nonneg_right _ (by positivity)
  apply Float64.roundedValue_mono _ _ _ _ Nat.one_pos Nat.one_pos
  simp only [Nat.cast_one, div_one]
  exact_mod_cast h1

theorem timestampOf_mono (n1 n2 : Int) (h1 : IsInt64 n1) (h2 : IsInt64 n2) (hle : n1 ≤ n2) :
    (timestampOf n1).toRat ≤ (timestampOf n2).toRat := by
  obtain ⟨A1, B1, hB1, hr1, _, hv1, _⟩ := timestampOf_value n1 (natAbs_le_of_isInt64 n1 h1)
  obtain ⟨A2, B2, hB2, hr2, _, hv2, _⟩ := timestampOf_value n2 (natAbs_le_of_isInt64 n2 h2)
  have p1 := Float64.roundedValue_nonneg A1 B1
  have p2 := Float64.roundedValue_nonneg A2 B2
  rw [hv1, hv2]
  by_cases s1 : n1 < 0
  · by_cases s2 : n2 < 0
    · have := timestamp_mag_mono n2 n1 (by omega) A2 B2 A1 B1 hB2 hB1 hr2 hr1
      simp only [s1, s2, if_true]
      linarith
    · simp only [s1, s2, if_true, if_false]
      linarith
  · have s2 : ¬ n2 < 0 := by omega
    have := timestamp_mag_mono n1 n2 (by omega) A1 B1 A2 B2 hB1 hB2 hr1 hr2
    simp only [s1, s2, if_false]
    linarith

theorem timestampOf_error (n : Int) (h : IsInt64 n) :
    |(timestampOf n).toRat - (n : ℚ) / 10 ^ 9|
      ≤ |(n : ℚ)| / 10 ^ 9 * (1 / 2 ^ 52 + 1 / 2 ^ 106) := by
  have hk := natAbs_le_of_isInt64 n h
  obtain ⟨A, B, hB, hr, _, hv, hnz⟩ := timestampOf_value n hk
  have hBq : (0 : ℚ) < B := by exact_mod_cast hB
  by_cases h0 : n = 0
  · subst h0
    have hz : Float64.roundedValue (0 : Int).natAbs 1 = 0 := by
      simpa using Float64.roundedValue_zero 1 Nat.one_pos
    rw [hz] at hr
    have hA : A = 0 := by
      have : (A : ℚ) = 0 := by
        have := hr
        rw [zero_div, div_eq_zero_iff] at this
        rcases this with x | x
        · exact x
        · linarith
      exact_mod_cast this
    rw [hv, hA, Float64.roundedValue_zero B hB]
    simp
  · obtain ⟨hA, hE⟩ := hnz h0
    have hkpos : 0 < n.natAbs := Int.natAbs_pos.mpr h0
    have e1 := Float64.roundedValue_rel n.natAbs 1 hkpos Nat.one_pos
      (by have := (floorLog2Ratio_natAbs n.natAbs hkpos hk).1; omega)
    have e2 := Float64.roundedValue_rel A B hA hB hE
    rw [hr] at e2
    simp only [Nat.cast_one, div_one] at e1
    have habs : |(n : ℚ)| = (n.natAbs : ℚ) := by
      rw [Nat.cast_natAbs, Int.cast_abs]
    have hkq : (0 : ℚ) ≤ (n.natAbs : ℚ) := by positivity
    set k : ℚ := (n.natAbs : ℚ) with hk_def
    set y : ℚ := Float64.roundedValue n.natAbs 1 with hy_def
    set t : ℚ := Float64.roundedValue A B with ht_def
    have hn : (n : ℚ) = (if n < 0 then -1 else 1) * k := by
      by_cases s : n < 0
      · simp only [s, if_true]
        have : |(n : ℚ)| = -(n : ℚ) := abs_of_neg (by exact_mod_cast s)
        rw [← habs, this]; ring
      · simp only [s, if_false]
        have : |(n : ℚ)| = (n : ℚ) := abs_of_nonneg (by exact_mod_cast (not_lt.mp s))
        rw [← habs, this]; ring
    have hmain : |t - k / 10 ^ 9| ≤ k / 10 ^ 9 * (1 / 2 ^ 52 + 1 / 2 ^ 106) := by
      rw [abs_le] at e1 e2 ⊢
      obtain ⟨a1, a2⟩ := e1
      obtain ⟨b1, b2⟩ := e2
      constructor
      · norm_num at a1 a2 b1 b2 ⊢
        linarith
      · norm_num at a1 a2 b1 b2 ⊢
        linarith
    rw [hv, habs]
    conv_lhs => rw [hn]
    by_cases s : n < 0
    · simp only [s, if_true]
      have : -1 * t - -1 * k / 10 ^ 9 = -(t - k / 10 ^ 9) := by ring
      rw [this, abs_neg]
      exact hmain
    · simp only [s, if_false, one_mul]
      exact hmain

theorem timestampOf_abs_error (n : Int) (h : IsInt64 n) :
    |(timestampOf n).toRat - (n : ℚ) / 10 ^ 9| < 1 / 400000 := by
  have herr := timestampOf_error n h
  refine lt_of_le_of_lt herr ?_
  have habs : |(n : ℚ)| ≤ 2 ^ 63 := by
    have := natAbs_le_of_isInt64 n h
    rw [← Int.cast_abs, Int.abs_eq_natAbs]
    exact_mod_cast this
  have hnn : (0 : ℚ) ≤ |(n : ℚ)| := abs_nonneg _
  calc |(n : ℚ)| / 10 ^ 9 * (1 / 2 ^ 52 + 1 / 2 ^ 106)
      ≤ 2 ^ 63 / 10 ^ 9 * (1 / 2 ^ 52 + 1 / 2 ^ 106) := by
        apply mul_le_mul_of_nonneg_right _ (by positivity)
        apply div_le_div_of_nonneg_right habs (by positivity)
    _ < 1 / 400000 := by norm_num

/-! A canonical path is rooted -/

namespace Path

theorem rooted_append (b : LazyBuf) (c : Char) (h : b.Rooted) : (b.append c).Rooted := by
  obtain ⟨h1, h2⟩ := h
  refine ⟨by simp [LazyBuf.append], ?_⟩
  cases hb : b.buf with
  | nil => rw [hb] at h2; simp at h2
  | cons x xs =>
    rw [hb] at h2
    obtain ⟨k, hk⟩ : ∃ k, b.w = k + 1 := ⟨b.w - 1, by omega⟩
    simp [LazyBuf.append, hb, hk] at h2 ⊢
    exact h2

theorem rooted_backtrack (dotdot : Nat) (hd : 1 ≤ dotdot) :
    ∀ (fuel : Nat) (b : LazyBuf), b.Rooted → (backtrack dotdot fuel b).Rooted := by
  intro fuel
  induction fuel with
  | zero => intro b h; exact h
  | succ f ih =>
    intro b h
    unfold backtrack
    split
    · rename_i hc
      apply ih
      exact ⟨by simp only; omega, h.2⟩
    · exact h

theorem rooted_copyElem (path : List Char) (n : Nat) :
    ∀ (fuel r : Nat) (b : LazyBuf), b.Rooted → (copyElem path n fuel r b).2.Rooted := by
  intro fuel
  induction fuel with
  | zero => intro r b h; exact h
  | succ f ih =>
    intro r b h
    unfold copyElem
    split
    · exact ih _ _ (rooted_append _ _ h)
    · exact h

theorem rooted_cleanLoop (path : List Char) (n : Nat) :
    ∀ (fuel r : Nat) (b : LazyBuf), b.Rooted → (cleanLoop path n true fuel r b 1).Rooted := by
  intro fuel
  induction fuel with
  | zero => intro r b h; exact h
  | succ f ih =>
    intro r b h
    unfold cleanLoop
    split
    · split
      · exact ih _ _ h
      · split
        · exact ih _ _ h
        · split
          · split
            · rename_i hw
              apply ih
              apply rooted_backtrack 1 le_rfl
              exact ⟨by simp only; omega, h.2⟩
            · simp only [Bool.not_true, Bool.false_eq_true, if_false]
              exact ih _ _ h
          · simp only
            apply ih
            apply rooted_copyElem
            split
            · exact rooted_append _ _ h
            · exact h
    · exact h

theorem clean_rooted (p : List Char) (hp : p.head? = some '/') : (clean p).head? = some '/' := by
  obtain ⟨t, rfl⟩ : ∃ t, p = '/' :: t := by
    cases p with
    | nil => simp at hp
    | cons x xs => simp at hp; exact ⟨xs, by rw [hp]⟩
  have h0 : (LazyBuf.append { buf := [], w := 0 } '/').Rooted := by
    constructor <;> simp [LazyBuf.append]
  unfold clean
  simp only [List.cons_ne_nil, if_false, List.getD_cons_zero, if_true, decide_True]
  generalize hres : cleanLoop ('/' :: t) _ true _ 1 (LazyBuf.append { buf := [], w := 0 } '/') 1
    = res
  have hr : res.Rooted := by
    rw [← hres]; exact rooted_cleanLoop _ _ _ _ _ h0
  obtain ⟨h1, h2⟩ := hr
  rw [if_neg (by omega)]
  unfold LazyBuf.string
  cases hb : res.buf with
  | nil => rw [hb] at h2; simp at h2
  | cons x xs =>
    rw [hb] at h2
    obtain ⟨k, hk⟩ : ∃ k, res.w = k + 1 := ⟨res.w - 1, by omega⟩
    rw [hk]
    simpa using h2

end Path

theorem cleanPath_rooted (p : String) : (cleanPath p).data.head? = some '/' := by
  unfold cleanPath
  split
  · rfl
  · rename_i hne
    simp only
    have hp1 : (if p.data.getD 0 ' ' ≠ '/' then '/' :: p.data else p.data).head? = some '/' := by
      split
      · rfl
      · rename_i hc
        cases hd : p.data with
        | nil =>
          exfalso
          apply hne
          cases p
          simp_all
        | cons x xs =>
          rw [hd] at hc
          simp at hc
          simp [hc]
    revert hp1
    generalize (if p.data.getD 0 ' ' ≠ '/' then '/' :: p.data else p.data) = p1
    intro hp1
    have hnp := Path.clean_rooted p1 hp1
    split
    · split
      · exact hp1
      · cases hc : Path.clean p1 with
        | nil => rw [hc] at hnp; simp at hnp
        | cons x xs => rw [hc] at hnp; simpa using hnp
    · exact hnp

/-! Dispatch through the default mux -/

theorem shouldRedirect_root (p : String) (hp : p.data.head? = some '/') :
    defaultServeMux.shouldRedirect p = false := by
  obtain ⟨data⟩ := p
  obtain ⟨t, rfl⟩ : ∃ t, data = '/' :: t := by
    cases data with
    | nil => simp at hp
    | cons x xs => simp at hp; exact ⟨xs, by rw [hp]⟩
  unfold ServeMux.shouldRedirect defaultServeMux ServeMux.handleFunc
  split
  · rfl
  · split
    · rfl
    · rw [if_neg]
      simp only [List.nil_append, List.contains_cons, List.contains_nil, Bool.or_false,
        beq_iff_eq, String.ext_iff, String.data_append]
      simp

theorem lookup_root (p : String) (hp : p.data.head? = some '/') :
    defaultServeMux.lookup p = .registered "/" := by
  obtain ⟨data⟩ := p
  obtain ⟨t, rfl⟩ : ∃ t, data = '/' :: t := by
    cases data with
    | nil => simp at hp
    | cons x xs => simp at hp; exact ⟨xs, by rw [hp]⟩
  unfold ServeMux.lookup ServeMux.matchPattern defaultServeMux ServeMux.handleFunc
  by_cases hc : ([] ++ ["/"] : List String).contains { data := '/' :: t } = true
  · rw [if_pos hc]
    have : ({ data := '/' :: t } : String) = "/" := by simpa using hc
    rw [this]
  · rw [if_neg hc]
    simp [ServeMux.longestPrefix]

theorem target_canonical (r : Request) (hclean : cleanPath r.path = r.path) :
    defaultServeMux.target r = .registered "/" := by
  have hroot : r.path.data.head? = some '/' := by
    rw [← hclean]; exact cleanPath_rooted r.path
  unfold ServeMux.target
  split
  · rw [shouldRedirect_root r.path hroot]
    simpa using lookup_root r.path hroot
  · simp only [hclean, shouldRedirect_root r.path hroot]
    simpa using lookup_root r.path hroot

theorem serve_canonical (code : Nat) (r : Request) (now : Int)
    (hexp : r.header.get "Expect" = "") (huri : r.requestURI ≠ "*")
    (hclean : cleanPath r.path = r.path) :
    serve code r now = onWire r (handler ResponseWriter.fresh r now).finish := by
  have ht := target_canonical r hclean
  unfold serve serveMux
  rw [if_neg (by simp [hexp]), if_neg (fun h => huri h.1), if_neg huri, ht]

/-! Results -/

theorem timestampOf_number (now : Int) (h : IsInt64 now) :
    ∃ neg m e, timestampOf now = Float64.fin neg m e ∧ IsJSONNumber (Json.floatText neg m e) := by
  obtain ⟨_, _, m, e, _, _, ht, _, _, hme⟩ := timestampOf_spec now (natAbs_le_of_isInt64 now h)
  exact ⟨_, m, e, ht, Json.floatText_isJSONNumber _ m e hme⟩

theorem canonical_content_type :
    Header.canonicalMIMEHeaderKey "Content-Type" = "Content-Type" := by decide

theorem get_set_content_type (h : Header) (v : String) :
    (h.set "Content-Type" v).get "Content-Type" = v := by
  simp [Header.set, Header.get, canonical_content_type, List.lookup]

/-- C1: for every request and every int64 clock reading, the response handler produces on a
writer whose status line is still unwritten has status 200; the status is the implicit 200 set
by the first body write, handler itself writes no status code. -/
theorem handler_status_200 (w : ResponseWriter) (r : Request) (now : Int)
    (hw : w.wroteHeader = false) (h : IsInt64 now) :
    (handler w r now).wroteHeader = true ∧ (handler w r now).status = 200 := by
  obtain ⟨m, e, ht⟩ := timestampOf_fin now h
  unfold handler
  rw [handlerRun_eq w r now _ m e ht]
  simp [ResponseWriter.write, ResponseWriter.writeHeader, ResponseWriter.setHeader, hw]

theorem handler_status_200_witness :
    ResponseWriter.fresh.wroteHeader = false ∧ IsInt64 1700000000123456789 ∧
    (handler ResponseWriter.fresh getRoot 1700000000123456789).wroteHeader = true ∧
    (handler ResponseWriter.fresh getRoot 1700000000123456789).status = 200 :=
  ⟨rfl, by decide,
    handler_status_200 ResponseWriter.fresh getRoot 1700000000123456789 rfl (by decide)⟩

/-- C2: for every request and every int64 clock reading, the JSON document handler encodes is
the object with the keys message, timestamp, language in that order, message being the string
"Hello from Golang API!", language the string "Golang" and timestamp a JSON number (the
encoder's text of the float64 timestamp); the body written is that object followed by the line
terminator Encode appends. -/
theorem handler_body_shape (r : Request) (now : Int) (h : IsInt64 now) :
    (response now).fields.map Prod.fst = ["message", "timestamp", "language"] ∧
    ∃ number : List Char, IsJSONNumber number ∧
      Json.encodeFloat (response now).Timestamp = .ok number ∧
      Json.marshal (response now) = .ok
        ("\x7b\"message\":\"Hello from Golang API!\",\"timestamp\":".data ++ number
          ++ ",\"language\":\"Golang\"\x7d".data) ∧
      (handler ResponseWriter.fresh r now).body =
        "\x7b\"message\":\"Hello from Golang API!\",\"timestamp\":".data ++ number
          ++ ",\"language\":\"Golang\"\x7d".data ++ ['\n'] := by
  obtain ⟨neg, m, e, ht, hnum⟩ := timestampOf_number now h
  refine ⟨rfl, Json.floatText neg m e, hnum, ?_, marshal_response now neg m e ht, ?_⟩
  · rw [response_timestamp, ht]; rfl
  · unfold handler
    rw [handlerRun_eq _ r now neg m e ht]
    simp [ResponseWriter.write, ResponseWriter.writeHeader, ResponseWriter.setHeader,
      ResponseWriter.fresh, objectText]

theorem handler_body_shape_witness :
    IsInt64 1700000000123456789 ∧
    (response 1700000000123456789).fields.map Prod.fst = ["message", "timestamp", "language"] ∧
    ∃ number : List Char, IsJSONNumber number ∧
      Json.encodeFloat (response 1700000000123456789).Timestamp = .ok number ∧
      Json.marshal (response 1700000000123456789) = .ok
        ("\x7b\"message\":\"Hello from Golang API!\",\"timestamp\":".data ++ number
          ++ ",\"language\":\"Golang\"\x7d".data) ∧
      (handler ResponseWriter.fresh postNested 1700000000123456789).body =
        "\x7b\"message\":\"Hello from Golang API!\",\"timestamp\":".data ++ number
          ++ ",\"language\":\"Golang\"\x7d".data ++ ['\n'] :=
  ⟨by decide, handler_body_shape postNested 1700000000123456789 (by decide)⟩

/-- C3: after handler runs the header map holds Content-Type: application/json, and for every
int64 clock reading the headers snapshotted when the first body byte is written (the headers
actually sent) already hold it, because handler sets the header before it calls Encode. -/
theorem handler_content_type (w : ResponseWriter) (r : Request) (now : Int)
    (hw : w.wroteHeader = false) (h : IsInt64 now) :
    (handler w r now).header.get "Content-Type" = "application/json" ∧
    (handler w r now).sentHeader.get "Content-Type" = "application/json" ∧
    handlerRun w r now
      = Json.encode (w.setHeader "Content-Type" "application/json") (response now) := by
  obtain ⟨m, e, ht⟩ := timestampOf_fin now h
  refine ⟨?_, ?_, rfl⟩
  · unfold handler
    rw [handlerRun_eq w r now _ m e ht]
    simp only [ResponseWriter.write, ResponseWriter.writeHeader, ResponseWriter.setHeader, hw]
    simp [get_set_content_type]
  · unfold handler
    rw [handlerRun_eq w r now _ m e ht]
    simp only [ResponseWriter.write, ResponseWriter.writeHeader, ResponseWriter.setHeader, hw]
    simp [get_set_content_type]

theorem handler_content_type_witness :
    ResponseWriter.fresh.wroteHeader = false ∧ IsInt64 0 ∧
    (handler ResponseWriter.fresh postNested 0).header.get "Content-Type" = "application/json" ∧
    (handler ResponseWriter.fresh postNested 0).sentHeader.get "Content-Type"
      = "application/json" ∧
    handlerRun ResponseWriter.fresh postNested 0
      = Json.encode (ResponseWriter.fresh.setHeader "Content-Type" "application/json")
          (response 0) :=
  ⟨rfl, by decide, handler_content_type ResponseWriter.fresh postNested 0 rfl (by decide)⟩

/-- C4: the APIResponse value handler builds has Message = "Hello from Golang API!" and
Language = "Golang" for every clock reading, and it is built from the clock reading alone, so
the two fields are the same constants whatever the request. -/
theorem response_constants (w : ResponseWriter) (r : Request) (now : Int) :
    (response now).Message = "Hello from Golang API!" ∧ (response now).Language = "Golang" ∧
    handlerRun w r now
      = Json.encode (w.setHeader "Content-Type" "application/json") (response now) :=
  ⟨rfl, rfl, rfl⟩

/-- C5: the response is a function of the clock reading alone: for any two requests and the
same clock reading (and the same initial writer) handler yields the same writer state, in
particular the same status, the same headers and byte-for-byte the same body. -/
theorem handler_noninterference (w : ResponseWriter) (r1 r2 : Request) (now : Int) :
    handler w r1 now = handler w r2 now ∧
    (handler w r1 now).status = (handler w r2 now).status ∧
    (handler w r1 now).header = (handler w r2 now).header ∧
    (handler w r1 now).sentHeader = (handler w r2 now).sentHeader ∧
    (handler w r1 now).body = (handler w r2 now).body :=
  ⟨rfl, rfl, rfl, rfl, rfl⟩

set_option maxRecDepth 100000 in
/-- The scenario `GET /` evaluated at the reading 1700000000123456789 ns: status 200, the JSON
content type, and the body with the timestamp text 1700000000.1234567, whatever status the
release uses for redirects. -/
theorem serve_getRoot_sample (code : Nat) :
    (serve code getRoot 1700000000123456789).status = 200 ∧
    (serve code getRoot 1700000000123456789).sentHeader
      = [("Content-Type", ["application/json"])] ∧
    (serve code getRoot 1700000000123456789).body =
      ("\x7b\"message\":\"Hello from Golang API!\",\"timestamp\":1700000000.1234567,"
        ++ "\"language\":\"Golang\"\x7d\n").data := by
  have e : serve code getRoot 1700000000123456789 = serve 301 getRoot 1700000000123456789 := by
    rw [serve_canonical code getRoot _ (by decide) (by decide) (by decide),
      serve_canonical 301 getRoot _ (by decide) (by decide) (by decide)]
  rw [e]
  decide

set_option maxRecDepth 100000 in
/-- The scenarios `HEAD /` and `GET /` with `Expect: foo`: the HEAD response has status 200 and
the JSON content type but no body; the request with the unsupported expectation is answered
with 417 and never reaches handler. -/
theorem serve_head_and_expect_samples :
    (serve 301 headRoot 1700000000123456789).status = 200 ∧
    (serve 301 headRoot 1700000000123456789).sentHeader
      = [("Content-Type", ["application/json"])] ∧
    (serve 301 headRoot 1700000000123456789).body = [] ∧
    (serve 301 getExpectFoo 1700000000123456789).status = 417 ∧
    (serve 301 getExpectFoo 1700000000123456789).body = [] := by
  decide

set_option maxRecDepth 100000 in
theorem timestampOf_sample :
    timestampOf 1700000000000000001 = Float64.fin false 7130316800000000 (-22) := by
  decide

set_option maxRecDepth 100000 in
/-- C7 (as stated it fails): at the int64 reading 1700000000000000001 the timestamp is not
n / 10^9, multiplying it by 10^9 gives 1700000000000000000 rather than n, and the reading one
nanosecond earlier produces the same timestamp, so n is not recoverable from it. -/
theorem timestamp_not_exact :
    IsInt64 1700000000000000001 ∧
    (timestampOf 1700000000000000001).toRat ≠ (1700000000000000001 : ℚ) / 10 ^ 9 ∧
    (timestampOf 1700000000000000001).toRat * 10 ^ 9 = 1700000000000000000 ∧
    timestampOf 1700000000000000001 = timestampOf 1700000000000000000 := by
  refine ⟨by decide, ?_, ?_, by decide⟩
  · rw [timestampOf_sample, Float64.toRat]; norm_num
  · rw [timestampOf_sample, Float64.toRat]; norm_num

/-- C7 (amended): for every int64 clock reading n the timestamp is a finite float64 that
approximates n / 10^9 seconds with relative error at most 2^-52 + 2^-106 (two float64
roundings: the conversion of n and the division by 1e9), hence within 2.5 microseconds of
n / 10^9: the sub-second fraction is kept to float64 precision, not truncated to whole
seconds. -/
theorem timestamp_accuracy (n : Int) (h : IsInt64 n) :
    (timestampOf n).isFinite = true ∧
    |(timestampOf n).toRat - (n : ℚ) / 10 ^ 9|
      ≤ |(n : ℚ)| / 10 ^ 9 * (1 / 2 ^ 52 + 1 / 2 ^ 106) ∧
    |(timestampOf n).toRat - (n : ℚ) / 10 ^ 9| < 1 / 400000 := by
  obtain ⟨m, e, ht⟩ := timestampOf_fin n h
  exact ⟨by rw [ht]; rfl, timestampOf_error n h, timestampOf_abs_error n h⟩

theorem timestamp_accuracy_witness :
    IsInt64 1700000000123456789 ∧
    (timestampOf 1700000000123456789).isFinite = true ∧
    |(timestampOf 1700000000123456789).toRat - ((1700000000123456789 : Int) : ℚ) / 10 ^ 9|
      ≤ |((1700000000123456789 : Int) : ℚ)| / 10 ^ 9 * (1 / 2 ^ 52 + 1 / 2 ^ 106) ∧
    |(timestampOf 1700000000123456789).toRat - ((1700000000123456789 : Int) : ℚ) / 10 ^ 9|
      < 1 / 400000 :=
  ⟨by decide, timestamp_accuracy 1700000000123456789 (by decide)⟩

theorem signedMant_cast (neg : Bool) (m : Nat) :
    ((Float64.signedMant neg m : Int) : ℚ) = (if neg then -1 else 1) * (m : ℚ) := by
  cases neg <;> simp [Float64.signedMant]

/-- On finite values the comparison `Float64.le` is the order of the represented rationals. -/
theorem le_fin_iff (s : Bool) (m : Nat) (e : Int) (t : Bool) (m' : Nat) (e' : Int) :
    Float64.le (.fin s m e) (.fin t m' e') = true ↔
      (Float64.fin s m e).toRat ≤ (Float64.fin t m' e').toRat := by
  have h1 := Float64.two_zpow_toNat (e - e')
  have h2 : (e' - e).toNat = (-(e - e')).toNat := by congr 1; ring
  have hp : (0 : ℚ) < 2 ^ (e - e') := by positivity
  have hq : (0 : ℚ) < 2 ^ (e' - e).toNat := by positivity
  have he : (2 : ℚ) ^ e = 2 ^ (e - e') * 2 ^ e' := by
    rw [← zpow_add₀ (by norm_num)]; congr 1; ring
  have hpe : (0 : ℚ) < 2 ^ e' := by positivity
  simp only [Float64.le, decide_eq_true_eq, toRat_fin]
  rw [← Int.cast_le (R := ℚ)]
  push_cast
  rw [signedMant_cast, signedMant_cast, ← h1, ← h2, he]
  set a : ℚ := (if s then -1 else 1) * (m : ℚ)
  set b : ℚ := (if t then -1 else 1) * (m' : ℚ)
  constructor
  · intro h
    have : a * 2 ^ (e - e') ≤ b := by
      have h' : a * 2 ^ (e - e') * 2 ^ (e' - e).toNat ≤ b * 2 ^ (e' - e).toNat := by
        calc a * 2 ^ (e - e') * 2 ^ (e' - e).toNat = a * (2 ^ (e - e') * 2 ^ (e' - e).toNat) := by
              ring
          _ ≤ _ := h
      exact le_of_mul_le_mul_right h' hq
    calc (if s then -1 else 1) * ((m : ℚ) * (2 ^ (e - e') * 2 ^ e'))
        = a * 2 ^ (e - e') * 2 ^ e' := by ring
      _ ≤ b * 2 ^ e' := mul_le_mul_of_nonneg_right this hpe.le
      _ = _ := by ring
  · intro h
    have h' : a * 2 ^ (e - e') * 2 ^ e' ≤ b * 2 ^ e' := by
      calc a * 2 ^ (e - e') * 2 ^ e'
          = (if s then -1 else 1) * ((m : ℚ) * (2 ^ (e - e') * 2 ^ e')) := by ring
        _ ≤ (if t then -1 else 1) * ((m' : ℚ) * 2 ^ e') := h
        _ = b * 2 ^ e' := by ring
    have := le_of_mul_le_mul_right h' hpe
    calc a * (2 ^ (e - e') * 2 ^ (e' - e).toNat) = a * 2 ^ (e - e') * 2 ^ (e' - e).toNat := by
          ring
      _ ≤ b * 2 ^ (e' - e).toNat := mul_le_mul_of_nonneg_right this hq.le

set_option maxRecDepth 100000 in
/-- C8 (as stated it fails): the int64 readings 1700000000000000000 and 1700000000000000100
differ, yet both produce the same float64 timestamp, so the first is not strictly less than
the second. -/
theorem timestamp_not_strict :
    IsInt64 1700000000000000000 ∧ IsInt64 1700000000000000100 ∧
    (1700000000000000000 : Int) < 1700000000000000100 ∧
    timestampOf 1700000000000000000 = timestampOf 1700000000000000100 ∧
    ¬ (timestampOf 1700000000000000000).toRat < (timestampOf 1700000000000000100).toRat := by
  have e : timestampOf 1700000000000000000 = timestampOf 1700000000000000100 := by decide
  refine ⟨by decide, by decide, by decide, e, ?_⟩
  rw [e]
  exact lt_irrefl _

/-- C8 (amended): the timestamp is monotone (non-decreasing) in the clock reading: for int64
readings n1 <= n2 both timestamps are finite and the first is less than or equal to the
second, as float64 comparison and as exact values. Strictness is not guaranteed for distinct
readings; what holds is that the second timestamp exceeds the first by more than the elapsed
time minus 5 microseconds, so it is strictly greater once the readings are 5000 ns apart. -/
theorem timestamp_monotone (n1 n2 : Int) (h1 : IsInt64 n1) (h2 : IsInt64 n2) (hle : n1 ≤ n2) :
    (timestampOf n1).isFinite = true ∧ (timestampOf n2).isFinite = true ∧
    Float64.le (timestampOf n1) (timestampOf n2) = true ∧
    (timestampOf n1).toRat ≤ (timestampOf n2).toRat ∧
    (timestampOf n1).toRat + (((n2 - n1 : Int) : ℚ) / 10 ^ 9 - 1 / 200000)
      < (timestampOf n2).toRat := by
  have hm := timestampOf_mono n1 n2 h1 h2 hle
  have a1 := abs_lt.mp (timestampOf_abs_error n1 h1)
  have a2 := abs_lt.mp (timestampOf_abs_error n2 h2)
  obtain ⟨m1, e1, t1⟩ := timestampOf_fin n1 h1
  obtain ⟨m2, e2, t2⟩ := timestampOf_fin n2 h2
  refine ⟨by rw [t1]; rfl, by rw [t2]; rfl, ?_, hm, ?_⟩
  · rw [t1, t2] at hm ⊢
    exact (le_fin_iff _ _ _ _ _ _).mpr hm
  · push_cast
    linarith [a1.1, a1.2, a2.1, a2.2]

theorem timestamp_monotone_witness :
    IsInt64 1700000000000000000 ∧ IsInt64 1700000001500000000 ∧
    (1700000000000000000 : Int) ≤ 1700000001500000000 ∧
    (timestampOf 1700000000000000000).isFinite = true ∧
    (timestampOf 1700000001500000000).isFinite = true ∧
    Float64.le (timestampOf 1700000000000000000) (timestampOf 1700000001500000000) = true ∧
    (timestampOf 1700000000000000000).toRat ≤ (timestampOf 1700000001500000000).toRat ∧
    (timestampOf 1700000000000000000).toRat
        + (((1700000001500000000 - 1700000000000000000 : Int) : ℚ) / 10 ^ 9 - 1 / 200000)
      < (timestampOf 1700000001500000000).toRat :=
  ⟨by decide, by decide, by decide,
    timestamp_monotone 1700000000000000000 1700000001500000000 (by decide) (by decide)
      (by decide)⟩

/-- C9: handler has no failure branch: for every int64 clock reading the timestamp is a finite
float64 (neither NaN nor an infinity), JSON-encoding the APIResponse succeeds, the error
returned by Encode (which handler discards) is nil, and the complete encoding followed by the
line terminator is appended to the body. -/
theorem handler_never_fails (w : ResponseWriter) (r : Request) (now : Int) (h : IsInt64 now) :
    (response now).Timestamp.isFinite = true ∧
    (response now).Timestamp ≠ Float64.nan ∧
    (∀ s, (response now).Timestamp ≠ Float64.inf s) ∧
    ∃ b, Json.marshal (response now) = .ok b ∧ (handlerRun w r now).2 = none ∧
      (handler w r now).body = w.body ++ b ++ ['\n'] := by
  obtain ⟨m, e, ht⟩ := timestampOf_fin now h
  rw [response_timestamp, ht]
  refine ⟨rfl, by simp, by simp, _, marshal_response now _ m e ht, ?_, ?_⟩
  · rw [handlerRun_eq w r now _ m e ht]; rfl
  · unfold handler
    rw [handlerRun_eq w r now _ m e ht]
    by_cases hw : w.wroteHeader = true <;>
      simp [ResponseWriter.write, ResponseWriter.writeHeader, ResponseWriter.setHeader, hw]

theorem handler_never_fails_witness :
    IsInt64 (-9223372036854775808) ∧
    (response (-9223372036854775808)).Timestamp.isFinite = true ∧
    (response (-9223372036854775808)).Timestamp ≠ Float64.nan ∧
    (∀ s, (response (-9223372036854775808)).Timestamp ≠ Float64.inf s) ∧
    ∃ b, Json.marshal (response (-9223372036854775808)) = .ok b ∧
      (handlerRun ResponseWriter.fresh getRoot (-9223372036854775808)).2 = none ∧
      (handler ResponseWriter.fresh getRoot (-9223372036854775808)).body
        = ResponseWriter.fresh.body ++ b ++ ['\n'] :=
  ⟨by decide, handler_never_fails ResponseWriter.fresh getRoot (-9223372036854775808) (by decide)⟩

theorem itoa_port : itoa port = "8003".data := by decide

/-- C10: main registers handler on the pattern "/", prints "Starting Golang API on port
8003...", then calls ListenAndServe once, on ":8003"; when that call returns an error main
logs it and the process exits with status 1, with no second listen attempt and no other port;
when the call does not return the process keeps serving; main never returns normally and never
exits with status 0. -/
theorem main_startup (err : String) (listenError : Option String) :
    main (some err) =
      ([.handleFunc "/", .printf "Starting Golang API on port 8003...\n",
        .listenAndServe ":8003", .logFatal err], .exited 1) ∧
    main none =
      ([.handleFunc "/", .printf "Starting Golang API on port 8003...\n",
        .listenAndServe ":8003"], .serving) ∧
    (main listenError).1.take 3 =
      [.handleFunc "/", .printf "Starting Golang API on port 8003...\n",
        .listenAndServe ":8003"] ∧
    ((main listenError).1.filter isListen).length = 1 ∧
    (main listenError).2 ≠ .returned ∧ (main listenError).2 ≠ .exited 0 := by
  have hp : String.mk ("Starting Golang API on port ".data ++ itoa port ++ "...\n".data)
      = "Starting Golang API on port 8003...\n" := by rw [itoa_port]; decide
  have ha : String.mk (":".data ++ itoa port) = ":8003" := by rw [itoa_port]; decide
  refine ⟨by simp only [main, hp, ha]; simp, by simp only [main, hp, ha], ?_⟩
  cases listenError with
  | none => simp only [main, hp, ha]; simp [isListen]
  | some e => simp only [main, hp, ha]; simp [isListen]

end GoApi
